import Mathlib

/-!
A verification development for the constraint-solver core of the
ConstraintSolver repository (`src/solver.ts` worker).  The TypeScript
source is shallowly embedded below: the labeled expression tree, the
scope resolver (`collectExpressions`), the entry store
(`getOrCreateEntry` / `getEntryFromReference`), the rule translator
(`defineRule`), the worklist propagator (`enactRule` and the drain
loop) and the result formatter are translated into executable Lean
definitions.  JavaScript `Map`s keyed by insertion order become
association lists, JavaScript `Set`s become duplicate-free lists in
insertion order (matching JS `Set.add` semantics, which does not move
an element that is already present), and thrown `TypeError`s become an
`Except` error type.  The drain loop iterates a `Set` that is being
extended while iterated and from which nothing is ever deleted; it is
embedded as an index-advancing loop over an append-only list, with a
fuel argument that is large enough because the worklist only ever
holds distinct ids of already-created entries.
-/

/-- A solver value: the TypeScript `string | number` union.  All numbers
that the solver core manipulates are integers (labels and literal
constants), so `number` is embedded as `Int`. -/
inductive Value where
  | num (n : Int)
  | str (s : String)
deriving DecidableEq, Repr

/-- The twelve binary operators of the FUN language. -/
inductive Op where
  | add | sub | mul | div | lt | gt | le | ge | eq | ne | disj | conj
deriving DecidableEq, Repr

/-- A labeled AST node (`Expression` from `program.d.ts`).  Source
positions (`line`, `column`) are omitted: the solver core only re-exports
them in diagnostics and never reads them for analysis logic. -/
inductive Exp where
  | num (label : Nat) (value : Int)
  | btrue (label : Nat)
  | bfalse (label : Nat)
  | var (label : Nat) (name : String)
  | binop (label : Nat) (o : Op) (left right : Exp)
  | eif (label : Nat) (condition thenBody elseBody : Exp)
  | fn (label : Nat) (vname : String) (body : Exp)
  | efun (label : Nat) (name vname : String) (body : Exp)
  | app (label : Nat) (callable argument : Exp)
  | elet (label : Nat) (vname : String) (value body : Exp)
deriving DecidableEq, Repr

/-- The variant tag of a node (the TypeScript `Expression['type']`
discriminator; each operator is its own tag, as in the source). -/
inductive Tag where
  | tnum | ttrue | tfalse | tvar | top (o : Op) | tif | tfn | tfun | tapp | tlet
deriving DecidableEq, Repr

/-- `expression.type` -/
def Exp.tag : Exp → Tag
  | .num .. => .tnum
  | .btrue .. => .ttrue
  | .bfalse .. => .tfalse
  | .var .. => .tvar
  | .binop _ o _ _ => .top o
  | .eif .. => .tif
  | .fn .. => .tfn
  | .efun .. => .tfun
  | .app .. => .tapp
  | .elet .. => .tlet

/-- `expression.label` -/
def Exp.label : Exp → Nat
  | .num l _ | .btrue l | .bfalse l | .var l _ | .binop l _ _ _ | .eif l _ _ _
  | .fn l _ _ | .efun l _ _ _ | .app l _ _ | .elet l _ _ _ => l

/-- `expression.name` (present on `var` and `fun` nodes; the TypeScript
type system prevents any other access, so the remaining cases are
unreachable and return the empty string). -/
def Exp.nameField : Exp → String
  | .var _ n => n
  | .efun _ n _ _ => n
  | _ => ""

/-- `expression.variable` (present on `fn`, `fun` and `let` nodes). -/
def Exp.variableField : Exp → String
  | .fn _ v _ => v
  | .efun _ _ v _ => v
  | .elet _ v _ _ => v
  | _ => ""

/-- All nodes of the tree in definition order: the node itself followed
by its children left to right, exactly the order in which
`collectExpressions` visits (and indexes) them. -/
def Exp.preorder : Exp → List Exp
  | .num l v => [.num l v]
  | .btrue l => [.btrue l]
  | .bfalse l => [.bfalse l]
  | .var l n => [.var l n]
  | .binop l o a b => .binop l o a b :: (a.preorder ++ b.preorder)
  | .eif l c t e => .eif l c t e :: (c.preorder ++ t.preorder ++ e.preorder)
  | .fn l v b => .fn l v b :: b.preorder
  | .efun l n v b => .efun l n v b :: b.preorder
  | .app l c a => .app l c a :: (c.preorder ++ a.preorder)
  | .elet l v x b => .elet l v x b :: (x.preorder ++ b.preorder)

section AssocList

variable {α β : Type} [DecidableEq α]

/-- `Map.get`: the value of the first pair with the given key. -/
def lookupA (l : List (α × β)) (k : α) : Option β :=
  (l.find? (fun p => p.1 = k)).map (fun p => p.2)

/-- `Map.set`: replace the value of the first pair with the given key,
or append a new pair (JS `Map.set` keeps the position of an existing
key and appends a new one). -/
def setA (l : List (α × β)) (k : α) (v : β) : List (α × β) :=
  match l with
  | [] => [(k, v)]
  | p :: rest => if p.1 = k then (k, v) :: rest else p :: setA rest k v

/-- Mutate the value stored under an existing key in place (the JS code
mutates the `Entry` object fields through the reference held in the map). -/
def updateA (l : List (α × β)) (k : α) (f : β → β) : List (α × β) :=
  match l with
  | [] => []
  | p :: rest => if p.1 = k then (p.1, f p.2) :: rest else p :: updateA rest k f

end AssocList

/-- The immutable name-to-label `Context`.  `extendContext` appends, and
`Object.fromEntries` lets later pairs win, so lookup scans from the end. -/
def Context := List (String × Nat)

/-- `context[name]`, with later (inner) bindings shadowing earlier ones. -/
def ctxLookup (ctx : Context) (n : String) : Option Nat :=
  lookupA (List.reverse ctx) n

/-- `extendContext(...names)`: append one pair per name, all mapping to
the current expression's label. -/
def extendContext (ctx : Context) (label : Nat) (names : List String) : Context :=
  List.append ctx (names.map (fun n => (n, label)))

/-- The `TypeError`s thrown by the solver worker. -/
inductive SolverError where
  | unboundVariable (label : Nat) (name : String)
  | nameCollision (label : Nat) (name : String)
  | unknownVariable
  | unknownLabel (label : Nat)
deriving DecidableEq, Repr

/-- The three indices built by the scope-resolution traversal:
`expressionByLabel`, `expressions` (nodes by variant tag) and
`labelOfvariableDeclaration` (each `var` node's binder label). -/
structure CollectResult where
  byLabel : List (Nat × Exp)
  byType : List (Tag × List Exp)
  binderMap : List (Exp × Nat)
deriving Repr

/-- The indexing performed on every visited node before the `switch`:
add the node to its variant's set (a JS `Set`, so adding a node already
present changes nothing) and record it under its label. -/
def indexNode (cr : CollectResult) (e : Exp) : CollectResult :=
  let cur := (lookupA cr.byType e.tag).getD []
  { cr with
    byType := setA cr.byType e.tag (if e ∈ cur then cur else cur ++ [e])
    byLabel := setA cr.byLabel e.label e }

/-- `collectExpressions`: the single scope-resolving traversal.  A `var`
whose name misses the context throws `UnboundVariable`; a `fun` whose
function name equals its parameter throws `NameCollision`. -/
def collectExpressions (e : Exp) (ctx : Context) (cr : CollectResult) :
    Except SolverError CollectResult :=
  let cr := indexNode cr e
  match e with
  | .num _ _ | .btrue _ | .bfalse _ => .ok cr
  | .var l n =>
    match ctxLookup ctx n with
    | some binder => .ok { cr with binderMap := setA cr.binderMap (.var l n) binder }
    | none => .error (.unboundVariable l n)
  | .binop _ _ a b => do
    let cr ← collectExpressions a ctx cr
    collectExpressions b ctx cr
  | .eif _ c t f => do
    let cr ← collectExpressions c ctx cr
    let cr ← collectExpressions t ctx cr
    collectExpressions f ctx cr
  | .fn l v b => collectExpressions b (extendContext ctx l [v]) cr
  | .efun l n v b =>
    if n = v then .error (.nameCollision l n)
    else collectExpressions b (extendContext ctx l [n, v]) cr
  | .app _ c a => do
    let cr ← collectExpressions c ctx cr
    collectExpressions a ctx cr
  | .elet l v x b => do
    let cr ← collectExpressions x ctx cr
    collectExpressions b (extendContext ctx l [v]) cr

/-- `collectExpressions(expression, {})`: scope resolution of the whole
tree, starting from an empty context and empty indices. -/
def collectAll (e : Exp) : Except SolverError CollectResult :=
  collectExpressions e [] ⟨[], [], []⟩

/-- `type(...tags)`: for each requested tag in argument order, all nodes
of that tag in the order they were indexed (definition order). -/
def getExpressionsOfType (cr : CollectResult) (types : List Tag) : List Exp :=
  types.flatMap (fun t => (lookupA cr.byType t).getD [])

/-- `label(n)` -/
def getExpressionByLabel (cr : CollectResult) (label : Nat) : Except SolverError Exp :=
  match lookupA cr.byLabel label with
  | some e => .ok e
  | none => .error (.unknownLabel label)

/-- One analysis fact-set.  `key` is the discriminator (`string | number`),
`data` the insertion-ordered, duplicate-free value set, `rules` the set of
translated rules to re-enact when `data` changes (held as indices into the
arena of translated rules, in insertion order).  The reserved `constant`
flag of the source is never set and is omitted. -/
structure Entry where
  key : Value
  data : List Value
  rules : List Nat
deriving DecidableEq, Repr

/-- The left-hand side of a translated rule: a constant yields its single
value once; a reference reads the referenced entry's current data at each
evaluation; a dynamic lhs applies the user callback to the current data of
its dependencies at each evaluation. -/
inductive TransLhs where
  | const (v : Value)
  | ref (entry : String)
  | dyn (deps : List String) (f : List (List Value) → List Value)

/-- `TranslatedRule`: lhs plus the id of the target entry. -/
structure TranslatedRule where
  lhs : TransLhs
  rhs : String

/-- The mutable solver state: the memoized entry map (keyed by the id
string `category(key)`, in creation order), the arena of translated
rules (in definition order) and the worklist, a JS `Set` of entries
embedded as a duplicate-free list of entry ids in first-add order. -/
structure SolverState where
  entries : List (String × Entry)
  trules : List TranslatedRule
  worklist : List String

/-- The current data of the entry with the given id (empty if absent;
every id the solver manipulates is present). -/
def entryData (st : SolverState) (id : String) : List Value :=
  ((lookupA st.entries id).map (fun e => e.data)).getD []

/-- The rule set of the entry with the given id. -/
def entryRules (st : SolverState) (id : String) : List Nat :=
  ((lookupA st.entries id).map (fun e => e.rules)).getD []

/-- `${key}` in the entry-id template string. -/
def keyStr : Value → String
  | .num n => toString n
  | .str s => s

/-- `getOrCreateEntry`: memoized entry creation keyed by
`` `${category}(${key})` ``; returns the id with the (possibly extended)
state. -/
def getOrCreateEntry (category : String) (key : Value) (st : SolverState) :
    String × SolverState :=
  let id := category ++ "(" ++ keyStr key ++ ")"
  match lookupA st.entries id with
  | some _ => (id, st)
  | none => (id, { st with entries := st.entries ++ [(id, ⟨key, [], []⟩)] })

/-- The four reference shapes of `rules.d.ts`.  Each constructor carries
the referenced node; the TypeScript types restrict `variable` to `var`
nodes, `boundVariable` to `fn`/`fun`/`let` nodes and `functionVariable`
to `fun` nodes. -/
inductive Reference where
  | variable (v : Exp)
  | boundVariable (b : Exp)
  | functionVariable (b : Exp)
  | expression (e : Exp)
deriving DecidableEq, Repr

/-- `getEntryFromReference`: canonicalize a reference to an entry.
A `variable` reference resolves through the binder map built by scope
resolution and fails if the node is unknown there. -/
def getEntryFromReference (cr : CollectResult) (ref : Reference) (st : SolverState) :
    Except SolverError (String × SolverState) :=
  match ref with
  | .variable v =>
    match lookupA cr.binderMap v with
    | some binder =>
      .ok (getOrCreateEntry "p" (.str (v.nameField ++ "#" ++ toString binder)) st)
    | none => .error .unknownVariable
  | .boundVariable b =>
    .ok (getOrCreateEntry "p" (.str (b.variableField ++ "#" ++ toString b.label)) st)
  | .functionVariable b =>
    .ok (getOrCreateEntry "p" (.str (b.nameField ++ "#" ++ toString b.label)) st)
  | .expression e => .ok (getOrCreateEntry "C" (.num (Int.ofNat e.label)) st)

/-- `worklist.add(entry)`: a JS `Set` add, a no-op when the id is already
present (crucially, it does not move an already-present element). -/
def addToWorklist (wl : List String) (id : String) : List String :=
  if id ∈ wl then wl else wl ++ [id]

/-- Insert each yielded value that is not already present, tracking
whether anything was inserted. -/
def insertValues (d : List Value) (vs : List Value) : List Value × Bool :=
  vs.foldl (fun acc v => if v ∈ acc.1 then acc else (acc.1 ++ [v], true)) (d, false)

/-- The values an lhs yields at this evaluation. -/
def lhsValues (st : SolverState) : TransLhs → List Value
  | .const v => [v]
  | .ref e => entryData st e
  | .dyn deps f => f (deps.map (entryData st))

/-- `enactRule`: evaluate the lhs, insert every missing value into the
rhs entry's data and, if at least one value was inserted, add the rhs to
the worklist. -/
def enactRule (rid : Nat) (st : SolverState) : SolverState :=
  match st.trules[rid]? with
  | none => st
  | some r =>
    let res := insertValues (entryData st r.rhs) (lhsValues st r.lhs)
    if res.2 then
      { st with
        entries := updateA st.entries r.rhs (fun e => { e with data := res.1 })
        worklist := addToWorklist st.worklist r.rhs }
    else st

/-- `entry.rules.add(translatedRule)`: record a reverse-dependency link
(a JS `Set` add, deduplicating). -/
def addRuleToEntry (st : SolverState) (id : String) (rid : Nat) : SolverState :=
  { st with
    entries := updateA st.entries id
      (fun e => { e with rules := if rid ∈ e.rules then e.rules else e.rules ++ [rid] }) }

/-- The user-facing `Rule.lhs`: a literal constant, a reference, or a
dynamic callback with its declared dependencies. -/
inductive Lhs where
  | const (v : Value)
  | ref (r : Reference)
  | dyn (f : List (List Value) → List Value) (deps : List Reference)

/-- A user `Rule` declaration. -/
structure Rule where
  lhs : Lhs
  rhs : Reference

/-- `defineRule`: resolve the rhs, translate the lhs (three-way dispatch),
register reverse-dependency links for reference and dynamic kinds, and
enact the new rule once ("seed").  The new rule's id is its index in the
arena. -/
def defineRule (cr : CollectResult) (rule : Rule) (st : SolverState) :
    Except SolverError SolverState := do
  let (rhsId, st) ← getEntryFromReference cr rule.rhs st
  match rule.lhs with
  | .const v =>
    let rid := st.trules.length
    let st := { st with trules := st.trules ++ [⟨.const v, rhsId⟩] }
    .ok (enactRule rid st)
  | .dyn f deps =>
    let (depIds, st) ← deps.foldlM
      (fun (acc : List String × SolverState) d => do
        let (id, st) ← getEntryFromReference cr d acc.2
        .ok (acc.1 ++ [id], st))
      (([] : List String), st)
    let rid := st.trules.length
    let st := { st with trules := st.trules ++ [⟨.dyn depIds f, rhsId⟩] }
    let st := depIds.foldl (fun s d => addRuleToEntry s d rid) st
    .ok (enactRule rid st)
  | .ref r =>
    let (lhsId, st) ← getEntryFromReference cr r st
    let rid := st.trules.length
    let st := { st with trules := st.trules ++ [⟨.ref lhsId, rhsId⟩] }
    let st := addRuleToEntry st lhsId rid
    .ok (enactRule rid st)

/-- The drain loop `for (const entry of worklist) entry.rules.forEach(enactRule)`:
iterate the worklist from the front; elements appended while iterating are
visited, elements already present are never appended again (JS `Set`
semantics), and nothing is ever removed.  The fuel only bounds the
recursion; it never cuts the loop short, because the worklist is a
duplicate-free list of ids of existing entries and no entry is created
during the drain, so the worklist length never exceeds the entry count. -/
def drainFrom (fuel i : Nat) (st : SolverState) : SolverState :=
  match fuel with
  | 0 => st
  | f + 1 =>
    match st.worklist[i]? with
    | none => st
    | some id => drainFrom f (i + 1) ((entryRules st id).foldl (fun s r => enactRule r s) st)

/-- Run the drain to completion. -/
def drainAll (st : SolverState) : SolverState :=
  drainFrom (st.entries.length + 1) 0 st

/-- Executable code-point lexicographic order on character lists.  This
is NOT a model of the browser's `localeCompare` (an implementation- and
locale-defined ICU/CLDR collation, which for example orders LOW LINE
before NUMBER SIGN, the opposite of their code points); it is one
possible host collation, used to instantiate the comparator-parametric
formatter `formatAnalysisWith` below so that the embedding stays
executable.  Every claim stated through this instantiation is
comparator-independent: its judged outputs either have only numeric
discriminators or use only order-independent properties (permutation,
membership). -/
def lexLe : List Char → List Char → Bool
  | [], _ => true
  | _ :: _, [] => false
  | c :: cs, d :: ds => if c = d then lexLe cs ds else decide (c < d)

/-- The sort comparator of the analysis snapshot: numeric keys ascending
before string keys, string keys ascending among themselves. -/
def keyLe : Value → Value → Bool
  | .num a, .num b => decide (a ≤ b)
  | .num _, .str _ => true
  | .str _, .num _ => false
  | .str a, .str b => lexLe a.data b.data

/-- Insert an element into a sorted list, after every element that
compares less-or-equal to it. -/
def insertSorted {α : Type} (le : α → α → Bool) (x : α) : List α → List α
  | [] => [x]
  | y :: ys => if le y x then y :: insertSorted le x ys else x :: y :: ys

/-- Stable insertion sort (elements are inserted left to right, each
going after earlier elements that compare equal to it), the same result
as the stable JS `Array.prototype.sort`; on the entry lists the solver
produces all keys are distinct, so any sort realizing the comparator's
total order agrees with the source anyway. -/
def sortBy {α : Type} (le : α → α → Bool) (l : List α) : List α :=
  l.foldl (fun acc x => insertSorted le x acc) []

/-- The final `analysis` object at the code-point instantiation of the
host collation: all entries sorted by key, each mapped to its data in
first-insertion order.  See `formatAnalysisWith` for the faithful,
collation-parametric formatter. -/
def formatAnalysis (entries : List (String × Entry)) : List (String × List Value) :=
  (sortBy (fun a b => keyLe a.2.key b.2.key) entries).map (fun p => (p.1, p.2.data))

/-- One whole solve up to (and including) the drain: scope resolution,
then rule definition in sequence (each seeding once), then the drain.
Any error aborts everything that follows. -/
def solveState (ast : Exp) (rules : List Rule) : Except SolverError SolverState := do
  let cr ← collectAll ast
  let st ← rules.foldlM (fun s r => defineRule cr r s) ⟨[], [], []⟩
  .ok (drainAll st)

/-- One whole solve: `solveState` followed by the result formatter, at
the code-point instantiation of the host collation (see `solveWith`).
Every claim stated through `solve` is collation-independent: numeric
discriminators only, or order-free properties. -/
def solve (ast : Exp) (rules : List Rule) : Except SolverError (List (String × List Value)) :=
  (solveState ast rules).map (fun st => formatAnalysis st.entries)

/-- The code-point order lifted to strings, one possible host collation. -/
def strLexLe (a b : String) : Bool := lexLe a.data b.data

/-- The source's sort comparator with the host's `localeCompare`-induced
string order `strLe` left abstract: numeric keys ascending before any
string keys (`typeof` dispatch, verbatim from the source), string keys
ordered by whatever total order the host's `localeCompare` implements
(ECMA-402 requires it to be a consistent total ordering, so the
transitivity and totality hypotheses of the theorems below cover every
host). -/
def keyLeWith (strLe : String → String → Bool) : Value → Value → Bool
  | .num a, .num b => decide (a ≤ b)
  | .num _, .str _ => true
  | .str _, .num _ => false
  | .str a, .str b => strLe a b

/-- The final `analysis` object with the host's string collation `strLe`
left abstract: all entries sorted by the source's comparator, each
mapped to its data in first-insertion order. -/
def formatAnalysisWith (strLe : String → String → Bool)
    (entries : List (String × Entry)) : List (String × List Value) :=
  (sortBy (fun a b => keyLeWith strLe a.2.key b.2.key) entries).map (fun p => (p.1, p.2.data))

/-- One whole solve under the host string collation `strLe`. -/
def solveWith (strLe : String → String → Bool) (ast : Exp) (rules : List Rule) :
    Except SolverError (List (String × List Value)) :=
  (solveState ast rules).map (fun st => formatAnalysisWith strLe st.entries)

/-- Modelled from the deployment environment (it is not repository code):
the fragment of the CLDR root collation that browsers implement for the
no-argument `localeCompare` the source calls, restricted to the
characters that can occur in an entry discriminator (`[a-z_#0-9()]`,
since variable names match `[a-z_]+` and the rest of a discriminator is
`#` plus a decimal label): connector punctuation LOW LINE collates
first, then NUMBER SIGN, then digits and letters in code-point order.
In CLDR (and hence in browser `localeCompare`) `_` sorts before `#`,
the opposite of their code points. -/
def cldrRank (c : Char) : Nat :=
  if c = '_' then 0
  else if c = '#' then 1
  else 2 + c.toNat

/-- Lexicographic comparison along `cldrRank`: the CLDR-fragment string
order. -/
def cldrLexLe : List Char → List Char → Bool
  | [], _ => true
  | _ :: _, [] => false
  | c :: cs, d :: ds => if c = d then cldrLexLe cs ds else decide (cldrRank c < cldrRank d)

/-- The CLDR-fragment collation on strings: the order the browser's
`localeCompare` gives the discriminators this development uses. -/
def cldrStrLe (a b : String) : Bool := cldrLexLe a.data b.data

instance {ε α : Type} [DecidableEq ε] [DecidableEq α] : DecidableEq (Except ε α) := fun a b =>
  match a, b with
  | .ok x, .ok y =>
    if h : x = y then .isTrue (by rw [h]) else .isFalse (by intro hc; injection hc; contradiction)
  | .error x, .error y =>
    if h : x = y then .isTrue (by rw [h]) else .isFalse (by intro hc; injection hc; contradiction)
  | .ok _, .error _ => .isFalse (by intro hc; injection hc)
  | .error _, .ok _ => .isFalse (by intro hc; injection hc)

section AssocLemmas

variable {α β : Type} [DecidableEq α]

theorem lookupA_setA_self (l : List (α × β)) (k : α) (v : β) :
    lookupA (setA l k v) k = some v := by
  induction l with
  | nil => simp [setA, lookupA, List.find?]
  | cons p rest ih =>
    by_cases h : p.1 = k
    · simp [setA, h, lookupA, List.find?]
    · simp only [setA, if_neg h]
      simpa [lookupA, List.find?_cons, h] using ih

theorem lookupA_setA_ne (l : List (α × β)) (k k' : α) (v : β) (h : k' ≠ k) :
    lookupA (setA l k v) k' = lookupA l k' := by
  induction l with
  | nil => simp [setA, lookupA, List.find?, Ne.symm h]
  | cons p rest ih =>
    by_cases hp : p.1 = k
    · subst hp
      simp [setA, lookupA, List.find?_cons, Ne.symm h]
    · simp only [setA, if_neg hp]
      by_cases hp' : p.1 = k'
      · simp [lookupA, List.find?_cons, hp']
      · simpa [lookupA, List.find?_cons, hp'] using ih

theorem lookupA_updateA_self (l : List (α × β)) (k : α) (f : β → β) :
    lookupA (updateA l k f) k = (lookupA l k).map f := by
  induction l with
  | nil => simp [updateA, lookupA, List.find?]
  | cons p rest ih =>
    by_cases h : p.1 = k
    · simp [updateA, h, lookupA, List.find?_cons]
    · simp only [updateA, if_neg h]
      simpa [lookupA, List.find?_cons, h] using ih

theorem lookupA_updateA_ne (l : List (α × β)) (k k' : α) (f : β → β) (h : k' ≠ k) :
    lookupA (updateA l k f) k' = lookupA l k' := by
  induction l with
  | nil => simp [updateA]
  | cons p rest ih =>
    by_cases hp : p.1 = k
    · subst hp
      simp [updateA, lookupA, List.find?_cons, Ne.symm h]
    · simp only [updateA, if_neg hp]
      by_cases hp' : p.1 = k'
      · simp [lookupA, List.find?_cons, hp']
      · simpa [lookupA, List.find?_cons, hp'] using ih

theorem lookupA_append (l m : List (α × β)) (k : α) :
    lookupA (l ++ m) k = match lookupA l k with | some v => some v | none => lookupA m k := by
  induction l with
  | nil => simp [lookupA]
  | cons p rest ih =>
    by_cases h : p.1 = k
    · simp [lookupA, List.find?_cons, h]
    · simpa [lookupA, List.find?_cons, h] using ih

theorem mem_updateA (l : List (α × β)) (k : α) (f : β → β) (p : α × β)
    (hp : p ∈ updateA l k f) : ∃ q ∈ l, p.1 = q.1 ∧ (p.2 = q.2 ∨ p.2 = f q.2) := by
  induction l with
  | nil => simp [updateA] at hp
  | cons q rest ih =>
    by_cases h : q.1 = k
    · simp only [updateA, if_pos h] at hp
      rcases List.mem_cons.mp hp with h1 | h1
      · exact ⟨q, List.mem_cons_self _ _, by simp [h1]⟩
      · exact ⟨p, List.mem_cons_of_mem _ h1, rfl, Or.inl rfl⟩
    · simp only [updateA, if_neg h] at hp
      rcases List.mem_cons.mp hp with h1 | h1
      · exact ⟨q, List.mem_cons_self _ _, by simp [h1]⟩
      · obtain ⟨r, hr, hr2⟩ := ih h1
        exact ⟨r, List.mem_cons_of_mem _ hr, hr2⟩

end AssocLemmas

section SortLemmas

variable {α : Type} (le : α → α → Bool)

theorem insertSorted_perm (x : α) (l : List α) : (insertSorted le x l).Perm (x :: l) := by
  induction l with
  | nil => rfl
  | cons y ys ih =>
    by_cases h : le y x
    · simp only [insertSorted, if_pos h]
      exact (List.Perm.cons y ih).trans (List.Perm.swap x y ys)
    · simp [insertSorted, if_neg h]

theorem sortBy_perm (l : List α) : (sortBy le l).Perm l := by
  suffices h : ∀ (l acc : List α),
      (List.foldl (fun acc x => insertSorted le x acc) acc l).Perm (l ++ acc) by
    simpa using h l []
  intro l
  induction l with
  | nil => intro acc; simp [List.Perm.refl]
  | cons x xs ih =>
    intro acc
    refine ((ih (insertSorted le x acc)).trans ?_)
    refine (List.Perm.append_left xs (insertSorted_perm le x acc)).trans ?_
    exact List.perm_middle.trans (by simp [List.Perm.refl])

theorem insertSorted_pairwise
    (htrans : ∀ a b c, le a b = true → le b c = true → le a c = true)
    (htotal : ∀ a b, le a b = true ∨ le b a = true)
    (x : α) (l : List α) (h : l.Pairwise (fun a b => le a b = true)) :
    (insertSorted le x l).Pairwise (fun a b => le a b = true) := by
  induction l with
  | nil => simp [insertSorted]
  | cons y ys ih =>
    rcases List.pairwise_cons.mp h with ⟨hy, hys⟩
    by_cases hle : le y x
    · simp only [insertSorted, if_pos hle]
      refine List.pairwise_cons.mpr ⟨?_, ih hys⟩
      intro z hz
      rcases List.mem_cons.mp ((insertSorted_perm le x ys).mem_iff.mp hz) with h1 | h1
      · subst h1; exact hle
      · exact hy z h1
    · simp only [insertSorted, if_neg hle]
      have hxy : le x y = true := (htotal x y).resolve_right (by simpa using hle)
      refine List.pairwise_cons.mpr ⟨?_, h⟩
      intro z hz
      rcases List.mem_cons.mp hz with h1 | h1
      · subst h1; exact hxy
      · exact htrans x y z hxy (hy z h1)

theorem sortBy_pairwise
    (htrans : ∀ a b c, le a b = true → le b c = true → le a c = true)
    (htotal : ∀ a b, le a b = true ∨ le b a = true)
    (l : List α) : (sortBy le l).Pairwise (fun a b => le a b = true) := by
  suffices h : ∀ (l acc : List α), acc.Pairwise (fun a b => le a b = true) →
      (List.foldl (fun acc x => insertSorted le x acc) acc l).Pairwise (fun a b => le a b = true) by
    exact h l [] (by simp)
  intro l
  induction l with
  | nil => intro acc hacc; simpa using hacc
  | cons x xs ih =>
    intro acc hacc
    exact ih _ (insertSorted_pairwise le htrans htotal x acc hacc)

end SortLemmas

theorem lexLe_trans : ∀ a b c : List Char, lexLe a b = true → lexLe b c = true → lexLe a c = true := by
  intro a
  induction a with
  | nil => intro b c _ _; rfl
  | cons x xs ih =>
    intro b c hab hbc
    match b, c with
    | [], _ => simp [lexLe] at hab
    | _ :: _, [] => simp [lexLe] at hbc
    | y :: ys, z :: zs =>
      by_cases hxy : x = y
      · subst hxy
        simp only [lexLe, if_pos rfl] at hab
        by_cases hyz : x = z
        · subst hyz
          simp only [lexLe, if_pos rfl] at hbc ⊢
          exact ih ys zs hab hbc
        · simpa [lexLe, hyz] using hbc
      · simp only [lexLe, if_neg hxy] at hab
        by_cases hyz : y = z
        · subst hyz
          simpa [lexLe, hxy] using hab
        · simp only [lexLe, if_neg hyz] at hbc
          have hx : x < y := of_decide_eq_true hab
          have hy : y < z := of_decide_eq_true hbc
          have hxz : x < z := lt_trans hx hy
          simp [lexLe, ne_of_lt hxz, hxz]

theorem lexLe_total : ∀ a b : List Char, lexLe a b = true ∨ lexLe b a = true := by
  intro a
  induction a with
  | nil => intro b; exact Or.inl rfl
  | cons x xs ih =>
    intro b
    match b with
    | [] => exact Or.inr rfl
    | y :: ys =>
      by_cases hxy : x = y
      · subst hxy
        simpa [lexLe] using ih ys
      · rcases lt_or_gt_of_ne hxy with h | h
        · exact Or.inl (by simp [lexLe, hxy, h])
        · exact Or.inr (by simp [lexLe, Ne.symm hxy, h])

theorem keyLe_trans : ∀ a b c : Value, keyLe a b = true → keyLe b c = true → keyLe a c = true := by
  intro a b c hab hbc
  match a, b, c with
  | .num x, .num y, .num z =>
    have h1 : x ≤ y := of_decide_eq_true hab
    have h2 : y ≤ z := of_decide_eq_true hbc
    simpa [keyLe] using le_trans h1 h2
  | .num _, _, .str _ => rfl
  | .num _, .str _, .num _ => simp [keyLe] at hbc
  | .str _, .num _, _ => simp [keyLe] at hab
  | .str _, .str _, .num _ => simp [keyLe] at hbc
  | .str x, .str y, .str z => exact lexLe_trans x.data y.data z.data hab hbc

theorem keyLe_total : ∀ a b : Value, keyLe a b = true ∨ keyLe b a = true := by
  intro a b
  match a, b with
  | .num x, .num y => simpa [keyLe, decide_eq_true_eq] using le_total x y
  | .num _, .str _ => exact Or.inl rfl
  | .str _, .num _ => exact Or.inr rfl
  | .str x, .str y => exact lexLe_total x.data y.data

theorem keyLeWith_trans (strLe : String → String → Bool)
    (hs : ∀ a b c, strLe a b = true → strLe b c = true → strLe a c = true) :
    ∀ a b c : Value, keyLeWith strLe a b = true → keyLeWith strLe b c = true →
      keyLeWith strLe a c = true := by
  intro a b c hab hbc
  match a, b, c with
  | .num x, .num y, .num z =>
    have h1 : x ≤ y := of_decide_eq_true hab
    have h2 : y ≤ z := of_decide_eq_true hbc
    simpa [keyLeWith] using le_trans h1 h2
  | .num _, _, .str _ => rfl
  | .num _, .str _, .num _ => simp [keyLeWith] at hbc
  | .str _, .num _, _ => simp [keyLeWith] at hab
  | .str _, .str _, .num _ => simp [keyLeWith] at hbc
  | .str x, .str y, .str z => exact hs x y z hab hbc

theorem keyLeWith_total (strLe : String → String → Bool)
    (hs : ∀ a b, strLe a b = true ∨ strLe b a = true) :
    ∀ a b : Value, keyLeWith strLe a b = true ∨ keyLeWith strLe b a = true := by
  intro a b
  match a, b with
  | .num x, .num y => simpa [keyLeWith, decide_eq_true_eq] using le_total x y
  | .num _, .str _ => exact Or.inl rfl
  | .str _, .num _ => exact Or.inr rfl
  | .str x, .str y => exact hs x y

theorem keyLeWith_strLexLe : ∀ a b : Value, keyLeWith strLexLe a b = keyLe a b := by
  intro a b
  cases a <;> cases b <;> rfl

/-- The executable formatter is the parametric one at the code-point
collation. -/
theorem formatAnalysisWith_strLexLe (entries : List (String × Entry)) :
    formatAnalysisWith strLexLe entries = formatAnalysis entries := by
  unfold formatAnalysisWith formatAnalysis
  simp only [keyLeWith_strLexLe]

theorem cldrRank_inj {x y : Char} (h : cldrRank x = cldrRank y) : x = y := by
  unfold cldrRank at h
  by_cases hx1 : x = '_' <;> by_cases hy1 : y = '_'
  · rw [hx1, hy1]
  · rw [if_pos hx1, if_neg hy1] at h
    by_cases hy2 : y = '#'
    · rw [if_pos hy2] at h
      exact absurd h (by decide)
    · rw [if_neg hy2] at h
      omega
  · rw [if_neg hx1, if_pos hy1] at h
    by_cases hx2 : x = '#'
    · rw [if_pos hx2] at h
      exact absurd h (by decide)
    · rw [if_neg hx2] at h
      omega
  · rw [if_neg hx1, if_neg hy1] at h
    by_cases hx2 : x = '#' <;> by_cases hy2 : y = '#'
    · rw [hx2, hy2]
    · rw [if_pos hx2, if_neg hy2] at h
      omega
    · rw [if_neg hx2, if_pos hy2] at h
      omega
    · rw [if_neg hx2, if_neg hy2] at h
      have h2 : x.toNat = y.toNat := by omega
      have h3 := congrArg Char.ofNat h2
      simpa [Char.ofNat_toNat] using h3

theorem cldrLexLe_trans :
    ∀ a b c : List Char, cldrLexLe a b = true → cldrLexLe b c = true → cldrLexLe a c = true := by
  intro a
  induction a with
  | nil => intro b c _ _; rfl
  | cons x xs ih =>
    intro b c hab hbc
    match b, c with
    | [], _ => simp [cldrLexLe] at hab
    | _ :: _, [] => simp [cldrLexLe] at hbc
    | y :: ys, z :: zs =>
      by_cases hxy : x = y
      · subst hxy
        have h1 : cldrLexLe (x :: xs) (x :: ys) = cldrLexLe xs ys := by simp [cldrLexLe]
        rw [h1] at hab
        by_cases hyz : x = z
        · subst hyz
          have h2 : cldrLexLe (x :: xs) (x :: zs) = cldrLexLe xs zs := by simp [cldrLexLe]
          have h3 : cldrLexLe (x :: ys) (x :: zs) = cldrLexLe ys zs := by simp [cldrLexLe]
          rw [h3] at hbc
          rw [h2]
          exact ih ys zs hab hbc
        · simpa [cldrLexLe, hyz] using hbc
      · simp only [cldrLexLe, if_neg hxy] at hab
        by_cases hyz : y = z
        · subst hyz
          simpa [cldrLexLe, hxy] using hab
        · simp only [cldrLexLe, if_neg hyz] at hbc
          have hx : cldrRank x < cldrRank y := of_decide_eq_true hab
          have hy : cldrRank y < cldrRank z := of_decide_eq_true hbc
          have hxz : cldrRank x < cldrRank z := lt_trans hx hy
          have hne : x ≠ z := by
            intro hc
            rw [hc] at hxz
            exact absurd hxz (lt_irrefl _)
          simp [cldrLexLe, hne, hxz]

theorem cldrLexLe_total : ∀ a b : List Char, cldrLexLe a b = true ∨ cldrLexLe b a = true := by
  intro a
  induction a with
  | nil => intro b; exact Or.inl rfl
  | cons x xs ih =>
    intro b
    match b with
    | [] => exact Or.inr rfl
    | y :: ys =>
      by_cases hxy : x = y
      · subst hxy
        simpa [cldrLexLe] using ih ys
      · have hrne : cldrRank x ≠ cldrRank y := fun h => hxy (cldrRank_inj h)
        rcases Nat.lt_or_ge (cldrRank x) (cldrRank y) with h | h
        · exact Or.inl (by simp [cldrLexLe, hxy, h])
        · have h2 : cldrRank y < cldrRank x := lt_of_le_of_ne h (Ne.symm hrne)
          exact Or.inr (by simp [cldrLexLe, Ne.symm hxy, h2])

theorem cldrStrLe_trans :
    ∀ a b c : String, cldrStrLe a b = true → cldrStrLe b c = true → cldrStrLe a c = true :=
  fun a b c hab hbc => cldrLexLe_trans a.data b.data c.data hab hbc

theorem cldrStrLe_total : ∀ a b : String, cldrStrLe a b = true ∨ cldrStrLe b a = true :=
  fun a b => cldrLexLe_total a.data b.data

/-- The executable string comparison agrees with the mathematical
lexicographic (strict) order on character lists. -/
theorem lexLe_iff : ∀ a b : List Char, lexLe a b = true ↔ (List.Lex (· < ·) a b ∨ a = b) := by
  intro a
  induction a with
  | nil =>
    intro b
    match b with
    | [] => simp [lexLe]
    | y :: ys => simp [lexLe, List.Lex.nil]
  | cons x xs ih =>
    intro b
    match b with
    | [] =>
      simp only [lexLe]
      constructor
      · intro h; simp at h
      · rintro (h | h)
        · cases h
        · simp at h
    | y :: ys =>
      by_cases hxy : x = y
      · subst hxy
        have h1 : lexLe (x :: xs) (x :: ys) = lexLe xs ys := by simp [lexLe]
        rw [h1, ih ys]
        constructor
        · rintro (h | h)
          · exact Or.inl (List.Lex.cons h)
          · exact Or.inr (by rw [h])
        · rintro (h | h)
          · cases h with
            | cons h => exact Or.inl h
            | rel h => exact absurd h (lt_irrefl x)
          · exact Or.inr (by injection h)
      · simp only [lexLe, if_neg hxy]
        constructor
        · intro h
          exact Or.inl (List.Lex.rel (of_decide_eq_true h))
        · rintro (h | h)
          · cases h with
            | cons h => exact absurd rfl hxy
            | rel h => exact decide_eq_true h
          · exact absurd (by injection h) hxy

section Monotonicity

/-- The per-value insertion step of `enactRule`, generalized over the
initial update flag. -/
theorem insertValues_fst_grows :
    ∀ (vs : List Value) (d : List Value) (b : Bool),
      d <+: (vs.foldl (fun acc v => if v ∈ acc.1 then acc else (acc.1 ++ [v], true)) (d, b)).1 := by
  intro vs
  induction vs with
  | nil => intro d b; exact List.prefix_refl d
  | cons v vs ih =>
    intro d b
    by_cases h : v ∈ d
    · simpa [h] using ih d b
    · simp only [List.foldl_cons, if_neg h]
      exact List.IsPrefix.trans (List.prefix_append d [v]) (ih (d ++ [v]) true)

theorem insertValues_fst_nodup :
    ∀ (vs : List Value) (d : List Value) (b : Bool), d.Nodup →
      ((vs.foldl (fun acc v => if v ∈ acc.1 then acc else (acc.1 ++ [v], true)) (d, b)).1).Nodup := by
  intro vs
  induction vs with
  | nil => intro d b h; exact h
  | cons v vs ih =>
    intro d b h
    by_cases hv : v ∈ d
    · simpa [hv] using ih d b h
    · simp only [List.foldl_cons, if_neg hv]
      exact ih (d ++ [v]) true (by simp [List.nodup_append, h, hv])

theorem insertValues_grows (d vs : List Value) : d <+: (insertValues d vs).1 :=
  insertValues_fst_grows vs d false

theorem insertValues_nodup (d vs : List Value) (h : d.Nodup) : ((insertValues d vs).1).Nodup :=
  insertValues_fst_nodup vs d false h

/-- Enacting any rule only ever appends to an entry's data. -/
theorem enactRule_data_grows (rid : Nat) (st : SolverState) (eid : String) :
    entryData st eid <+: entryData (enactRule rid st) eid := by
  unfold enactRule
  cases htr : st.trules[rid]? with
  | none => exact List.prefix_refl _
  | some r =>
    simp only
    by_cases hupd : (insertValues (entryData st r.rhs) (lhsValues st r.lhs)).2
    · simp only [hupd, if_true]
      by_cases hid : eid = r.rhs
      · rw [hid]
        unfold entryData
        dsimp only
        rw [lookupA_updateA_self]
        cases hlk : lookupA st.entries r.rhs with
        | none => simp
        | some e =>
          simp only [Option.map_some', Option.getD_some]
          exact insertValues_grows e.data _
      · unfold entryData
        dsimp only
        rw [lookupA_updateA_ne _ _ _ _ hid]
    · simp only [hupd, if_false]
      exact List.prefix_refl _

/-- Monotonicity extends over any sequence of rule enactments. -/
theorem foldl_enact_data_grows (rids : List Nat) (st : SolverState) (eid : String) :
    entryData st eid <+: entryData (rids.foldl (fun s r => enactRule r s) st) eid := by
  induction rids generalizing st with
  | nil => exact List.prefix_refl _
  | cons r rs ih =>
    exact List.IsPrefix.trans (enactRule_data_grows r st eid) (by simpa using ih (enactRule r st))

/-- Monotonicity extends over the whole drain. -/
theorem drainFrom_data_grows (fuel : Nat) :
    ∀ (i : Nat) (st : SolverState) (eid : String),
      entryData st eid <+: entryData (drainFrom fuel i st) eid := by
  induction fuel with
  | zero => intro i st eid; exact List.prefix_refl _
  | succ f ih =>
    intro i st eid
    unfold drainFrom
    cases hwl : st.worklist[i]? with
    | none => exact List.prefix_refl _
    | some wid =>
      simp only
      exact List.IsPrefix.trans (foldl_enact_data_grows (entryRules st wid) st eid) (ih (i + 1) _ eid)

/-- Every entry's data holds no duplicate values. -/
def DataNodup (st : SolverState) : Prop := ∀ p ∈ st.entries, p.2.data.Nodup

theorem entryData_nodup {st : SolverState} (h : DataNodup st) (eid : String) :
    (entryData st eid).Nodup := by
  unfold entryData lookupA
  cases hf : st.entries.find? (fun p => p.1 = eid) with
  | none => simp
  | some p =>
    have hm : p ∈ st.entries := List.mem_of_find?_eq_some hf
    simpa using h p hm

theorem enactRule_nodup (rid : Nat) (st : SolverState) (h : DataNodup st) :
    DataNodup (enactRule rid st) := by
  unfold enactRule
  cases htr : st.trules[rid]? with
  | none => exact h
  | some r =>
    simp only
    by_cases hupd : (insertValues (entryData st r.rhs) (lhsValues st r.lhs)).2
    · simp only [hupd, if_true]
      intro p hp
      obtain ⟨q, hq, _, h2⟩ := mem_updateA _ _ _ p hp
      rcases h2 with h2 | h2
      · rw [h2]; exact h q hq
      · rw [h2]
        exact insertValues_nodup _ _ (entryData_nodup h r.rhs)
    · simp only [hupd, if_false]
      exact h

end Monotonicity

theorem bind_ok {ε α β : Type} {x : Except ε α} {f : α → Except ε β} {b : β} :
    (x >>= f = Except.ok b) ↔ ∃ a, x = Except.ok a ∧ f a = Except.ok b := by
  cases x with
  | error e => simp [Bind.bind, Except.bind]
  | ok a => simp [Bind.bind, Except.bind]

/-- What `getOrCreateEntry` returns: the id is always the template string,
and the state is either unchanged (hit) or extended by one fresh empty
entry (miss). -/
theorem getOrCreateEntry_spec (c : String) (k : Value) (st : SolverState) :
    (getOrCreateEntry c k st).1 = c ++ "(" ++ keyStr k ++ ")" ∧
    ((getOrCreateEntry c k st).2 = st ∨
      (getOrCreateEntry c k st).2 =
        { st with entries := st.entries ++ [(c ++ "(" ++ keyStr k ++ ")", ⟨k, [], []⟩)] }) := by
  unfold getOrCreateEntry
  dsimp only
  split <;> simp

/-- A successful reference resolution is some `getOrCreateEntry` call. -/
theorem getEntryFromReference_ok (cr : CollectResult) (ref : Reference) (st : SolverState)
    (eid : String) (st' : SolverState)
    (hok : getEntryFromReference cr ref st = .ok (eid, st')) :
    ∃ c k, getOrCreateEntry c k st = (eid, st') := by
  cases ref
  next v =>
    unfold getEntryFromReference at hok
    dsimp only at hok
    cases hlk : lookupA cr.binderMap v with
    | none => rw [hlk] at hok; exact absurd hok (by simp)
    | some binder =>
      rw [hlk] at hok
      injection hok with hok
      exact ⟨_, _, hok⟩
  next b =>
    unfold getEntryFromReference at hok
    dsimp only at hok
    injection hok with hok
    exact ⟨_, _, hok⟩
  next b =>
    unfold getEntryFromReference at hok
    dsimp only at hok
    injection hok with hok
    exact ⟨_, _, hok⟩
  next e =>
    unfold getEntryFromReference at hok
    dsimp only at hok
    injection hok with hok
    exact ⟨_, _, hok⟩

section NodupSolve

theorem getOrCreateEntry_nodup (c : String) (k : Value) (st : SolverState)
    (h : DataNodup st) : DataNodup (getOrCreateEntry c k st).2 := by
  rcases (getOrCreateEntry_spec c k st).2 with h2 | h2 <;> rw [h2]
  · exact h
  · intro p hp
    rcases List.mem_append.mp hp with h1 | h1
    · exact h p h1
    · simp only [List.mem_singleton] at h1
      rw [h1]
      exact List.nodup_nil

theorem addRuleToEntry_nodup (st : SolverState) (eid : String) (rid : Nat)
    (h : DataNodup st) : DataNodup (addRuleToEntry st eid rid) := by
  intro p hp
  obtain ⟨q, hq, _, h2⟩ := mem_updateA _ _ _ p hp
  rcases h2 with h2 | h2
  · rw [h2]; exact h q hq
  · rw [h2]; exact h q hq

theorem getEntryFromReference_nodup (cr : CollectResult) (ref : Reference)
    (st : SolverState) (eid : String) (st' : SolverState)
    (hok : getEntryFromReference cr ref st = .ok (eid, st'))
    (h : DataNodup st) : DataNodup st' := by
  obtain ⟨c, k, hc⟩ := getEntryFromReference_ok cr ref st eid st' hok
  have := getOrCreateEntry_nodup c k st h
  rw [hc] at this
  exact this

theorem depsFold_nodup (cr : CollectResult) :
    ∀ (deps : List Reference) (acc : List String × SolverState) (res : List String × SolverState),
      deps.foldlM
        (fun (acc : List String × SolverState) d => do
          let (id, st) ← getEntryFromReference cr d acc.2
          Except.ok (acc.1 ++ [id], st))
        acc = .ok res →
      DataNodup acc.2 → DataNodup res.2 := by
  intro deps
  induction deps with
  | nil =>
    intro acc res hok h
    simp only [List.foldlM_nil] at hok
    injection hok with hok
    rw [← hok]
    exact h
  | cons d ds ih =>
    intro acc res hok h
    simp only [List.foldlM_cons] at hok
    rw [bind_ok] at hok
    obtain ⟨a, ha, hok⟩ := hok
    rw [bind_ok] at ha
    obtain ⟨⟨aid, ast⟩, ha2, ha⟩ := ha
    injection ha with ha
    rw [← ha] at hok
    exact ih _ res hok (getEntryFromReference_nodup cr d acc.2 aid ast ha2 h)

theorem addRules_fold_nodup (depIds : List String) (rid : Nat) (st : SolverState)
    (h : DataNodup st) : DataNodup (depIds.foldl (fun s d => addRuleToEntry s d rid) st) := by
  induction depIds generalizing st with
  | nil => exact h
  | cons d ds ih => exact ih _ (addRuleToEntry_nodup st d rid h)

theorem defineRule_nodup (cr : CollectResult) (rule : Rule) (st st' : SolverState)
    (hok : defineRule cr rule st = .ok st') (h : DataNodup st) : DataNodup st' := by
  unfold defineRule at hok
  rw [bind_ok] at hok
  obtain ⟨⟨rhsId, st1⟩, hrhs, hok⟩ := hok
  have h1 : DataNodup st1 := getEntryFromReference_nodup cr rule.rhs st rhsId st1 hrhs h
  cases hl : rule.lhs with
  | const v =>
    rw [hl] at hok
    dsimp only at hok
    injection hok with hok
    rw [← hok]
    exact enactRule_nodup _ _ h1
  | dyn f deps =>
    rw [hl] at hok
    dsimp only at hok
    rw [bind_ok] at hok
    obtain ⟨⟨depIds, st2⟩, hfold, hok⟩ := hok
    dsimp only at hok
    injection hok with hok
    rw [← hok]
    exact enactRule_nodup _ _ (addRules_fold_nodup _ _ _ (depsFold_nodup cr deps _ _ hfold h1))
  | ref r =>
    rw [hl] at hok
    dsimp only at hok
    rw [bind_ok] at hok
    obtain ⟨⟨lhsId, st2⟩, href, hok⟩ := hok
    dsimp only at hok
    injection hok with hok
    rw [← hok]
    exact enactRule_nodup _ _
      (addRuleToEntry_nodup _ _ _ (getEntryFromReference_nodup cr r st1 lhsId st2 href h1))

theorem rulesFold_nodup (cr : CollectResult) :
    ∀ (rules : List Rule) (st st' : SolverState),
      rules.foldlM (fun s r => defineRule cr r s) st = .ok st' →
      DataNodup st → DataNodup st' := by
  intro rules
  induction rules with
  | nil =>
    intro st st' hok h
    simp only [List.foldlM_nil] at hok
    injection hok with hok
    rw [← hok]
    exact h
  | cons r rs ih =>
    intro st st' hok h
    simp only [List.foldlM_cons] at hok
    rw [bind_ok] at hok
    obtain ⟨st2, hdef, hok⟩ := hok
    exact ih st2 st' hok (defineRule_nodup cr r st st2 hdef h)

theorem foldl_enact_nodup (rids : List Nat) (st : SolverState) (h : DataNodup st) :
    DataNodup (rids.foldl (fun s r => enactRule r s) st) := by
  induction rids generalizing st with
  | nil => exact h
  | cons a as ih => exact ih _ (enactRule_nodup a st h)

theorem drainFrom_nodup (fuel : Nat) :
    ∀ (i : Nat) (st : SolverState), DataNodup st → DataNodup (drainFrom fuel i st) := by
  induction fuel with
  | zero => intro i st h; exact h
  | succ f ih =>
    intro i st h
    unfold drainFrom
    cases hwl : st.worklist[i]? with
    | none => exact h
    | some wid =>
      simp only
      exact ih (i + 1) _ (foldl_enact_nodup _ st h)

theorem solveState_nodup (ast : Exp) (rules : List Rule) (st : SolverState)
    (hok : solveState ast rules = .ok st) : DataNodup st := by
  unfold solveState at hok
  rw [bind_ok] at hok
  obtain ⟨cr, hcr, hok⟩ := hok
  rw [bind_ok] at hok
  obtain ⟨st1, hfold, hok⟩ := hok
  injection hok with hok
  rw [← hok]
  refine drainFrom_nodup _ _ _ ?_
  exact rulesFold_nodup cr rules _ _ hfold (by intro p hp; simp at hp)

end NodupSolve

/-- Modelled from the spec sentence "a `var` node whose name is not bound
by any enclosing fn/fun/let binder": every variable occurrence is bound
by an enclosing binder, given the names already in scope.  (`fun` brings
both its function name and its parameter into scope for its body; `let`
scopes its variable over the body only.) -/
def specAllVarsBound : Exp → List String → Bool
  | .num _ _, _ | .btrue _, _ | .bfalse _, _ => true
  | .var _ n, env => env.contains n
  | .binop _ _ a b, env => specAllVarsBound a env && specAllVarsBound b env
  | .eif _ c t f, env => specAllVarsBound c env && specAllVarsBound t env && specAllVarsBound f env
  | .fn _ v b, env => specAllVarsBound b (v :: env)
  | .efun _ n v b, env => specAllVarsBound b (n :: v :: env)
  | .app _ c a, env => specAllVarsBound c env && specAllVarsBound a env
  | .elet _ v x b, env => specAllVarsBound x env && specAllVarsBound b (v :: env)

/-- Modelled from the spec sentence about `NameCollision`: no `fun` node
of the tree uses the same identifier for its function name and its
parameter. -/
def specNoFunCollision : Exp → Bool
  | .num _ _ | .btrue _ | .bfalse _ | .var _ _ => true
  | .binop _ _ a b => specNoFunCollision a && specNoFunCollision b
  | .eif _ c t f => specNoFunCollision c && specNoFunCollision t && specNoFunCollision f
  | .fn _ _ b => specNoFunCollision b
  | .efun _ n v b => !(n == v) && specNoFunCollision b
  | .app _ c a => specNoFunCollision c && specNoFunCollision a
  | .elet _ _ x b => specNoFunCollision x && specNoFunCollision b

/-- An error is one of the two scope-resolution failures. -/
def scopeErr (err : SolverError) : Prop :=
  (∃ l n, err = .unboundVariable l n) ∨ (∃ l n, err = .nameCollision l n)

theorem lookupA_cons_self {α β : Type} [DecidableEq α] (p : α × β) (rest : List (α × β))
    (k : α) (h : p.1 = k) : lookupA (p :: rest) k = some p.2 := by
  simp [lookupA, List.find?_cons, h]

theorem lookupA_cons_ne {α β : Type} [DecidableEq α] (p : α × β) (rest : List (α × β))
    (k : α) (h : p.1 ≠ k) : lookupA (p :: rest) k = lookupA rest k := by
  simp [lookupA, List.find?_cons, h]

theorem lookupA_value_const {β : Type} (l : List (String × β)) (v : β) (n : String)
    (h : ∀ p ∈ l, p.2 = v) :
    lookupA l n = if n ∈ l.map Prod.fst then some v else none := by
  induction l with
  | nil => simp [lookupA]
  | cons p rest ih =>
    have ih2 := ih (fun q hq => h q (List.mem_cons_of_mem p hq))
    by_cases hp : p.1 = n
    · rw [lookupA_cons_self p rest n hp, h p (List.mem_cons_self p rest)]
      simp [hp]
    · rw [lookupA_cons_ne p rest n hp, ih2]
      have hne : n ≠ p.1 := fun hc => hp hc.symm
      by_cases hmem : n ∈ List.map Prod.fst rest <;> simp [hmem, List.mem_cons, hne]

theorem ctxLookup_extendContext (ctx : Context) (l : Nat) (names : List String) (n : String) :
    ctxLookup (extendContext ctx l names) n =
      if n ∈ names then some l else ctxLookup ctx n := by
  unfold ctxLookup extendContext
  rw [show List.reverse (List.append ctx (names.map fun n => (n, l)))
      = (names.map fun n => (n, l)).reverse ++ List.reverse ctx from List.reverse_append ..]
  rw [lookupA_append]
  rw [lookupA_value_const ((names.map fun n => (n, l)).reverse) l n
    (by intro p hp; simp only [List.mem_reverse, List.mem_map] at hp; obtain ⟨a, _, ha⟩ := hp; rw [← ha])]
  have hmem : (n ∈ ((names.map fun n => (n, l)).reverse.map Prod.fst)) ↔ n ∈ names := by
    simp [List.mem_reverse, List.mem_map]
  by_cases h : n ∈ names
  · simp [h, hmem.mpr h]
  · simp [h, fun hc => h (hmem.mp hc)]

theorem henv_extend (ctx : Context) (env : List String) (l : Nat) (names : List String)
    (henv : ∀ n, env.contains n = (ctxLookup ctx n).isSome) :
    ∀ n, (names ++ env).contains n = (ctxLookup (extendContext ctx l names) n).isSome := by
  intro n
  rw [ctxLookup_extendContext]
  by_cases h : n ∈ names
  · simp [List.mem_append, h]
  · have h2 : (names ++ env).contains n = env.contains n := by
      by_cases hm : n ∈ env <;> simp [List.mem_append, h, hm]
    rw [h2, henv n]
    simp [h]

/-- The heart of the scope-resolution contract: relative to any context
whose bound names are exactly `env`, the traversal succeeds when every
variable is bound and no `fun` binder collides, fails with one of the two
scope errors when some variable is unbound (with `UnboundVariable` when
no collision is hit), and fails with `NameCollision` when all variables
are bound but some `fun` binder collides. -/
theorem collect_scope (e : Exp) :
    ∀ (ctx : Context) (env : List String) (cr : CollectResult),
      (∀ n, env.contains n = (ctxLookup ctx n).isSome) →
      ((specAllVarsBound e env = true → specNoFunCollision e = true →
          ∃ cr2, collectExpressions e ctx cr = .ok cr2)
        ∧ (specAllVarsBound e env = false →
            ∃ err, collectExpressions e ctx cr = .error err ∧ scopeErr err ∧
              (specNoFunCollision e = true → ∃ l n, err = .unboundVariable l n))
        ∧ (specAllVarsBound e env = true → specNoFunCollision e = false →
            ∃ l n, collectExpressions e ctx cr = .error (.nameCollision l n))) := by
  induction e with
  | num l v =>
    intro ctx env cr henv
    exact ⟨fun _ _ => ⟨_, rfl⟩, fun hb => by simp [specAllVarsBound] at hb,
      fun _ hn => by simp [specNoFunCollision] at hn⟩
  | btrue l =>
    intro ctx env cr henv
    exact ⟨fun _ _ => ⟨_, rfl⟩, fun hb => by simp [specAllVarsBound] at hb,
      fun _ hn => by simp [specNoFunCollision] at hn⟩
  | bfalse l =>
    intro ctx env cr henv
    exact ⟨fun _ _ => ⟨_, rfl⟩, fun hb => by simp [specAllVarsBound] at hb,
      fun _ hn => by simp [specNoFunCollision] at hn⟩
  | var l n =>
    intro ctx env cr henv
    refine ⟨?_, ?_, ?_⟩
    · intro hb _
      have h1 : (ctxLookup ctx n).isSome := by rw [← henv n]; exact hb
      obtain ⟨binder, hbind⟩ := Option.isSome_iff_exists.mp h1
      refine ⟨{ indexNode cr (.var l n) with
        binderMap := setA (indexNode cr (.var l n)).binderMap (.var l n) binder }, ?_⟩
      simp [collectExpressions, hbind]
    · intro hb
      have h1 : (ctxLookup ctx n).isSome = false := by rw [← henv n]; exact hb
      have hnone : ctxLookup ctx n = none := by
        cases h : ctxLookup ctx n with
        | none => rfl
        | some x => rw [h] at h1; simp at h1
      refine ⟨.unboundVariable l n, ?_, Or.inl ⟨l, n, rfl⟩, fun _ => ⟨l, n, rfl⟩⟩
      simp [collectExpressions, hnone]
    · intro _ hn
      exact absurd hn (by simp [specNoFunCollision])
  | binop l o a b iha ihb =>
    intro ctx env cr henv
    have hc : collectExpressions (.binop l o a b) ctx cr
        = (collectExpressions a ctx (indexNode cr (.binop l o a b))) >>=
            (fun crm => collectExpressions b ctx crm) := rfl
    obtain ⟨iha1, iha2, iha3⟩ := iha ctx env (indexNode cr (.binop l o a b)) henv
    refine ⟨?_, ?_, ?_⟩
    · intro hb hn
      simp only [specAllVarsBound, Bool.and_eq_true] at hb
      simp only [specNoFunCollision, Bool.and_eq_true] at hn
      obtain ⟨cr2, hca⟩ := iha1 hb.1 hn.1
      obtain ⟨ihb1, _, _⟩ := ihb ctx env cr2 henv
      obtain ⟨cr3, hcb⟩ := ihb1 hb.2 hn.2
      exact ⟨cr3, by rw [hc, hca]; simpa [Bind.bind, Except.bind] using hcb⟩
    · intro hb
      simp only [specAllVarsBound] at hb
      cases hA : specAllVarsBound a env with
      | false =>
        obtain ⟨err, hca, herr, hunb⟩ := iha2 hA
        refine ⟨err, ?_, herr, ?_⟩
        · rw [hc, hca]; simp [Bind.bind, Except.bind]
        · intro hn
          simp only [specNoFunCollision, Bool.and_eq_true] at hn
          exact hunb hn.1
      | true =>
        have hB : specAllVarsBound b env = false := by
          rw [hA] at hb; simpa using hb
        cases hNa : specNoFunCollision a with
        | true =>
          obtain ⟨cr2, hca⟩ := iha1 hA hNa
          obtain ⟨_, ihb2, _⟩ := ihb ctx env cr2 henv
          obtain ⟨err, hcb, herr, hunb⟩ := ihb2 hB
          refine ⟨err, ?_, herr, ?_⟩
          · rw [hc, hca]; simpa [Bind.bind, Except.bind] using hcb
          · intro hn
            simp only [specNoFunCollision, Bool.and_eq_true] at hn
            exact hunb hn.2
        | false =>
          obtain ⟨l2, n2, hca⟩ := iha3 hA hNa
          refine ⟨.nameCollision l2 n2, ?_, Or.inr ⟨l2, n2, rfl⟩, ?_⟩
          · rw [hc, hca]; simp [Bind.bind, Except.bind]
          · intro hn
            simp only [specNoFunCollision, Bool.and_eq_true] at hn
            rw [hn.1] at hNa
            exact absurd hNa (by simp)
    · intro hb hn
      simp only [specAllVarsBound, Bool.and_eq_true] at hb
      cases hNa : specNoFunCollision a with
      | false =>
        obtain ⟨l2, n2, hca⟩ := iha3 hb.1 hNa
        exact ⟨l2, n2, by rw [hc, hca]; simp [Bind.bind, Except.bind]⟩
      | true =>
        have hNb : specNoFunCollision b = false := by
          simp only [specNoFunCollision, hNa, Bool.true_and] at hn
          exact hn
        obtain ⟨cr2, hca⟩ := iha1 hb.1 hNa
        obtain ⟨_, _, ihb3⟩ := ihb ctx env cr2 henv
        obtain ⟨l2, n2, hcb⟩ := ihb3 hb.2 hNb
        exact ⟨l2, n2, by rw [hc, hca]; simpa [Bind.bind, Except.bind] using hcb⟩
  | app l a b iha ihb =>
    intro ctx env cr henv
    have hc : collectExpressions (.app l a b) ctx cr
        = (collectExpressions a ctx (indexNode cr (.app l a b))) >>=
            (fun crm => collectExpressions b ctx crm) := rfl
    obtain ⟨iha1, iha2, iha3⟩ := iha ctx env (indexNode cr (.app l a b)) henv
    refine ⟨?_, ?_, ?_⟩
    · intro hb hn
      simp only [specAllVarsBound, Bool.and_eq_true] at hb
      simp only [specNoFunCollision, Bool.and_eq_true] at hn
      obtain ⟨cr2, hca⟩ := iha1 hb.1 hn.1
      obtain ⟨ihb1, _, _⟩ := ihb ctx env cr2 henv
      obtain ⟨cr3, hcb⟩ := ihb1 hb.2 hn.2
      exact ⟨cr3, by rw [hc, hca]; simpa [Bind.bind, Except.bind] using hcb⟩
    · intro hb
      simp only [specAllVarsBound] at hb
      cases hA : specAllVarsBound a env with
      | false =>
        obtain ⟨err, hca, herr, hunb⟩ := iha2 hA
        refine ⟨err, ?_, herr, ?_⟩
        · rw [hc, hca]; simp [Bind.bind, Except.bind]
        · intro hn
          simp only [specNoFunCollision, Bool.and_eq_true] at hn
          exact hunb hn.1
      | true =>
        have hB : specAllVarsBound b env = false := by
          rw [hA] at hb; simpa using hb
        cases hNa : specNoFunCollision a with
        | true =>
          obtain ⟨cr2, hca⟩ := iha1 hA hNa
          obtain ⟨_, ihb2, _⟩ := ihb ctx env cr2 henv
          obtain ⟨err, hcb, herr, hunb⟩ := ihb2 hB
          refine ⟨err, ?_, herr, ?_⟩
          · rw [hc, hca]; simpa [Bind.bind, Except.bind] using hcb
          · intro hn
            simp only [specNoFunCollision, Bool.and_eq_true] at hn
            exact hunb hn.2
        | false =>
          obtain ⟨l2, n2, hca⟩ := iha3 hA hNa
          refine ⟨.nameCollision l2 n2, ?_, Or.inr ⟨l2, n2, rfl⟩, ?_⟩
          · rw [hc, hca]; simp [Bind.bind, Except.bind]
          · intro hn
            simp only [specNoFunCollision, Bool.and_eq_true] at hn
            rw [hn.1] at hNa
            exact absurd hNa (by simp)
    · intro hb hn
      simp only [specAllVarsBound, Bool.and_eq_true] at hb
      cases hNa : specNoFunCollision a with
      | false =>
        obtain ⟨l2, n2, hca⟩ := iha3 hb.1 hNa
        exact ⟨l2, n2, by rw [hc, hca]; simp [Bind.bind, Except.bind]⟩
      | true =>
        have hNb : specNoFunCollision b = false := by
          simp only [specNoFunCollision, hNa, Bool.true_and] at hn
          exact hn
        obtain ⟨cr2, hca⟩ := iha1 hb.1 hNa
        obtain ⟨_, _, ihb3⟩ := ihb ctx env cr2 henv
        obtain ⟨l2, n2, hcb⟩ := ihb3 hb.2 hNb
        exact ⟨l2, n2, by rw [hc, hca]; simpa [Bind.bind, Except.bind] using hcb⟩
  | fn l v b ihb =>
    intro ctx env cr henv
    have henv2 := henv_extend ctx env l [v] henv
    exact ihb (extendContext ctx l [v]) (v :: env) (indexNode cr (.fn l v b)) henv2
  | efun l n v b ihb =>
    intro ctx env cr henv
    by_cases hcol : n = v
    · have hcc : collectExpressions (.efun l n v b) ctx cr = .error (.nameCollision l n) := by
        simp [collectExpressions, hcol]
      have hnfc : specNoFunCollision (.efun l n v b) = false := by
        simp [specNoFunCollision, hcol]
      refine ⟨?_, ?_, ?_⟩
      · intro _ hn
        rw [hnfc] at hn
        exact absurd hn (by simp)
      · intro hb
        exact ⟨.nameCollision l n, hcc, Or.inr ⟨l, n, rfl⟩,
          fun hn => by rw [hnfc] at hn; exact absurd hn (by simp)⟩
      · intro _ _
        exact ⟨l, n, hcc⟩
    · have hcc : collectExpressions (.efun l n v b) ctx cr
          = collectExpressions b (extendContext ctx l [n, v]) (indexNode cr (.efun l n v b)) := by
        simp [collectExpressions, hcol]
      have hnfc : specNoFunCollision (.efun l n v b) = specNoFunCollision b := by
        simp [specNoFunCollision, hcol]
      have henv2 := henv_extend ctx env l [n, v] henv
      obtain ⟨h1, h2, h3⟩ := ihb (extendContext ctx l [n, v]) (n :: v :: env)
        (indexNode cr (.efun l n v b)) henv2
      refine ⟨?_, ?_, ?_⟩
      · intro hb hn
        rw [hnfc] at hn
        obtain ⟨cr2, h⟩ := h1 hb hn
        exact ⟨cr2, by rw [hcc]; exact h⟩
      · intro hb
        obtain ⟨err, h, herr, hu⟩ := h2 hb
        exact ⟨err, by rw [hcc]; exact h, herr, fun hx => hu (by rw [← hnfc]; exact hx)⟩
      · intro hb hn
        rw [hnfc] at hn
        obtain ⟨l2, n2, h⟩ := h3 hb hn
        exact ⟨l2, n2, by rw [hcc]; exact h⟩
  | elet l v x b ihx ihb =>
    intro ctx env cr henv
    have hc : collectExpressions (.elet l v x b) ctx cr
        = (collectExpressions x ctx (indexNode cr (.elet l v x b))) >>=
            (fun crm => collectExpressions b (extendContext ctx l [v]) crm) := rfl
    have henv2 := henv_extend ctx env l [v] henv
    obtain ⟨ihx1, ihx2, ihx3⟩ := ihx ctx env (indexNode cr (.elet l v x b)) henv
    refine ⟨?_, ?_, ?_⟩
    · intro hb hn
      simp only [specAllVarsBound, Bool.and_eq_true] at hb
      simp only [specNoFunCollision, Bool.and_eq_true] at hn
      obtain ⟨cr2, hca⟩ := ihx1 hb.1 hn.1
      obtain ⟨ihb1, _, _⟩ := ihb (extendContext ctx l [v]) (v :: env) cr2 henv2
      obtain ⟨cr3, hcb⟩ := ihb1 hb.2 hn.2
      exact ⟨cr3, by rw [hc, hca]; simpa [Bind.bind, Except.bind] using hcb⟩
    · intro hb
      simp only [specAllVarsBound] at hb
      cases hA : specAllVarsBound x env with
      | false =>
        obtain ⟨err, hca, herr, hunb⟩ := ihx2 hA
        refine ⟨err, ?_, herr, ?_⟩
        · rw [hc, hca]; simp [Bind.bind, Except.bind]
        · intro hn
          simp only [specNoFunCollision, Bool.and_eq_true] at hn
          exact hunb hn.1
      | true =>
        have hB : specAllVarsBound b (v :: env) = false := by
          rw [hA] at hb; simpa using hb
        cases hNa : specNoFunCollision x with
        | true =>
          obtain ⟨cr2, hca⟩ := ihx1 hA hNa
          obtain ⟨_, ihb2, _⟩ := ihb (extendContext ctx l [v]) (v :: env) cr2 henv2
          obtain ⟨err, hcb, herr, hunb⟩ := ihb2 hB
          refine ⟨err, ?_, herr, ?_⟩
          · rw [hc, hca]; simpa [Bind.bind, Except.bind] using hcb
          · intro hn
            simp only [specNoFunCollision, Bool.and_eq_true] at hn
            exact hunb hn.2
        | false =>
          obtain ⟨l2, n2, hca⟩ := ihx3 hA hNa
          refine ⟨.nameCollision l2 n2, ?_, Or.inr ⟨l2, n2, rfl⟩, ?_⟩
          · rw [hc, hca]; simp [Bind.bind, Except.bind]
          · intro hn
            simp only [specNoFunCollision, Bool.and_eq_true] at hn
            rw [hn.1] at hNa
            exact absurd hNa (by simp)
    · intro hb hn
      simp only [specAllVarsBound, Bool.and_eq_true] at hb
      cases hNa : specNoFunCollision x with
      | false =>
        obtain ⟨l2, n2, hca⟩ := ihx3 hb.1 hNa
        exact ⟨l2, n2, by rw [hc, hca]; simp [Bind.bind, Except.bind]⟩
      | true =>
        have hNb : specNoFunCollision b = false := by
          simp only [specNoFunCollision, hNa, Bool.true_and] at hn
          exact hn
        obtain ⟨cr2, hca⟩ := ihx1 hb.1 hNa
        obtain ⟨_, _, ihb3⟩ := ihb (extendContext ctx l [v]) (v :: env) cr2 henv2
        obtain ⟨l2, n2, hcb⟩ := ihb3 hb.2 hNb
        exact ⟨l2, n2, by rw [hc, hca]; simpa [Bind.bind, Except.bind] using hcb⟩
  | eif l c t f ihc iht ihf =>
    intro ctx env cr henv
    have hcx : collectExpressions (.eif l c t f) ctx cr
        = (collectExpressions c ctx (indexNode cr (.eif l c t f))) >>=
            (fun crm => (collectExpressions t ctx crm) >>=
              (fun crm2 => collectExpressions f ctx crm2)) := rfl
    obtain ⟨ihc1, ihc2, ihc3⟩ := ihc ctx env (indexNode cr (.eif l c t f)) henv
    refine ⟨?_, ?_, ?_⟩
    · intro hb hn
      simp only [specAllVarsBound, Bool.and_eq_true] at hb
      simp only [specNoFunCollision, Bool.and_eq_true] at hn
      obtain ⟨cr2, hcc⟩ := ihc1 hb.1.1 hn.1.1
      obtain ⟨iht1, _, _⟩ := iht ctx env cr2 henv
      obtain ⟨cr3, hct⟩ := iht1 hb.1.2 hn.1.2
      obtain ⟨ihf1, _, _⟩ := ihf ctx env cr3 henv
      obtain ⟨cr4, hcf⟩ := ihf1 hb.2 hn.2
      refine ⟨cr4, ?_⟩
      rw [hcx, hcc]
      simp only [Bind.bind, Except.bind]
      rw [hct]
      simpa [Bind.bind, Except.bind] using hcf
    · intro hb
      simp only [specAllVarsBound] at hb
      cases hA : specAllVarsBound c env with
      | false =>
        obtain ⟨err, hcc, herr, hunb⟩ := ihc2 hA
        refine ⟨err, ?_, herr, ?_⟩
        · rw [hcx, hcc]; simp [Bind.bind, Except.bind]
        · intro hn
          simp only [specNoFunCollision, Bool.and_eq_true] at hn
          exact hunb hn.1.1
      | true =>
        cases hNc : specNoFunCollision c with
        | false =>
          obtain ⟨l2, n2, hcc⟩ := ihc3 hA hNc
          refine ⟨.nameCollision l2 n2, ?_, Or.inr ⟨l2, n2, rfl⟩, ?_⟩
          · rw [hcx, hcc]; simp [Bind.bind, Except.bind]
          · intro hn
            simp only [specNoFunCollision, Bool.and_eq_true] at hn
            rw [hn.1.1] at hNc
            exact absurd hNc (by simp)
        | true =>
          obtain ⟨cr2, hcc⟩ := ihc1 hA hNc
          obtain ⟨iht1, iht2, iht3⟩ := iht ctx env cr2 henv
          cases hB : specAllVarsBound t env with
          | false =>
            obtain ⟨err, hct, herr, hunb⟩ := iht2 hB
            refine ⟨err, ?_, herr, ?_⟩
            · rw [hcx, hcc]
              simp [Bind.bind, Except.bind, hct]
            · intro hn
              simp only [specNoFunCollision, Bool.and_eq_true] at hn
              exact hunb hn.1.2
          | true =>
            have hC : specAllVarsBound f env = false := by
              rw [hA, hB] at hb; simpa using hb
            cases hNt : specNoFunCollision t with
            | false =>
              obtain ⟨l2, n2, hct⟩ := iht3 hB hNt
              refine ⟨.nameCollision l2 n2, ?_, Or.inr ⟨l2, n2, rfl⟩, ?_⟩
              · rw [hcx, hcc]
                simp [Bind.bind, Except.bind, hct]
              · intro hn
                simp only [specNoFunCollision, Bool.and_eq_true] at hn
                rw [hn.1.2] at hNt
                exact absurd hNt (by simp)
            | true =>
              obtain ⟨cr3, hct⟩ := iht1 hB hNt
              obtain ⟨_, ihf2, _⟩ := ihf ctx env cr3 henv
              obtain ⟨err, hcf, herr, hunb⟩ := ihf2 hC
              refine ⟨err, ?_, herr, ?_⟩
              · rw [hcx, hcc]
                simp only [Bind.bind, Except.bind]
                rw [hct]
                simpa [Bind.bind, Except.bind] using hcf
              · intro hn
                simp only [specNoFunCollision, Bool.and_eq_true] at hn
                exact hunb hn.2
    · intro hb hn
      simp only [specAllVarsBound, Bool.and_eq_true] at hb
      cases hNc : specNoFunCollision c with
      | false =>
        obtain ⟨l2, n2, hcc⟩ := ihc3 hb.1.1 hNc
        exact ⟨l2, n2, by rw [hcx, hcc]; simp [Bind.bind, Except.bind]⟩
      | true =>
        obtain ⟨cr2, hcc⟩ := ihc1 hb.1.1 hNc
        obtain ⟨iht1, _, iht3⟩ := iht ctx env cr2 henv
        cases hNt : specNoFunCollision t with
        | false =>
          obtain ⟨l2, n2, hct⟩ := iht3 hb.1.2 hNt
          refine ⟨l2, n2, ?_⟩
          rw [hcx, hcc]
          simp [Bind.bind, Except.bind, hct]
        | true =>
          have hNf : specNoFunCollision f = false := by
            simp only [specNoFunCollision, hNc, hNt, Bool.true_and] at hn
            exact hn
          obtain ⟨cr3, hct⟩ := iht1 hb.1.2 hNt
          obtain ⟨_, _, ihf3⟩ := ihf ctx env cr3 henv
          obtain ⟨l2, n2, hcf⟩ := ihf3 hb.2 hNf
          refine ⟨l2, n2, ?_⟩
          rw [hcx, hcc]
          simp only [Bind.bind, Except.bind]
          rw [hct]
          simpa [Bind.bind, Except.bind] using hcf

/-- The contents of the by-variant index for one tag. -/
def bucketOf (cr : CollectResult) (t : Tag) : List Exp :=
  (lookupA cr.byType t).getD []

theorem bucketOf_indexNode (cr : CollectResult) (e : Exp)
    (h : e ∉ bucketOf cr e.tag) (t : Tag) :
    bucketOf (indexNode cr e) t = bucketOf cr t ++ (if e.tag = t then [e] else []) := by
  unfold indexNode bucketOf
  dsimp only
  rw [if_neg (by simpa [bucketOf] using h)]
  by_cases ht : e.tag = t
  · rw [← ht, lookupA_setA_self]
    simp [bucketOf]
  · rw [lookupA_setA_ne _ _ _ _ (fun hc => ht hc.symm)]
    simp [ht]

theorem collect_buckets (e : Exp) :
    ∀ (ctx : Context) (cr cr2 : CollectResult),
      collectExpressions e ctx cr = .ok cr2 →
      e.preorder.Nodup →
      (∀ x ∈ e.preorder, x ∉ bucketOf cr x.tag) →
      ∀ t, bucketOf cr2 t = bucketOf cr t ++ e.preorder.filter (fun x => x.tag == t) := by
  induction e with
  | num l v =>
    intro ctx cr cr2 hok hnd hfresh t
    have he : (Exp.num l v) ∉ bucketOf cr (Exp.num l v).tag :=
      hfresh _ (by simp [Exp.preorder])
    injection hok with hok
    rw [← hok, bucketOf_indexNode cr _ he t]
    by_cases ht : (Exp.num l v).tag = t <;>
      simp [Exp.preorder, List.filter_cons, ht]
  | btrue l =>
    intro ctx cr cr2 hok hnd hfresh t
    have he : (Exp.btrue l) ∉ bucketOf cr (Exp.btrue l).tag :=
      hfresh _ (by simp [Exp.preorder])
    injection hok with hok
    rw [← hok, bucketOf_indexNode cr _ he t]
    by_cases ht : (Exp.btrue l).tag = t <;>
      simp [Exp.preorder, List.filter_cons, ht]
  | bfalse l =>
    intro ctx cr cr2 hok hnd hfresh t
    have he : (Exp.bfalse l) ∉ bucketOf cr (Exp.bfalse l).tag :=
      hfresh _ (by simp [Exp.preorder])
    injection hok with hok
    rw [← hok, bucketOf_indexNode cr _ he t]
    by_cases ht : (Exp.bfalse l).tag = t <;>
      simp [Exp.preorder, List.filter_cons, ht]
  | var l n =>
    intro ctx cr cr2 hok hnd hfresh t
    have he : (Exp.var l n) ∉ bucketOf cr (Exp.var l n).tag :=
      hfresh _ (by simp [Exp.preorder])
    unfold collectExpressions at hok
    dsimp only at hok
    cases hlk : ctxLookup ctx n with
    | none => rw [hlk] at hok; exact absurd hok (by simp)
    | some binder =>
      rw [hlk] at hok
      injection hok with hok
      have hby : cr2.byType = (indexNode cr (Exp.var l n)).byType := by
        rw [← hok]
      have : bucketOf cr2 t = bucketOf (indexNode cr (Exp.var l n)) t := by
        unfold bucketOf
        rw [hby]
      rw [this, bucketOf_indexNode cr _ he t]
      by_cases ht : (Exp.var l n).tag = t <;>
        simp [Exp.preorder, List.filter_cons, ht]
  | binop l o a b iha ihb =>
    intro ctx cr cr2 hok hnd hfresh t
    have hc : collectExpressions (.binop l o a b) ctx cr
        = (collectExpressions a ctx (indexNode cr (.binop l o a b))) >>=
            (fun crm => collectExpressions b ctx crm) := rfl
    rw [hc, bind_ok] at hok
    obtain ⟨crm, hca, hcb⟩ := hok
    have he : (Exp.binop l o a b) ∉ bucketOf cr (Exp.binop l o a b).tag :=
      hfresh _ (by simp [Exp.preorder])
    simp only [Exp.preorder, List.nodup_cons, List.nodup_append, List.mem_append] at hnd
    obtain ⟨hmemE, hndA, hndB, hdisj⟩ := hnd
    have hfreshA : ∀ x ∈ a.preorder, x ∉ bucketOf (indexNode cr (.binop l o a b)) x.tag := by
      intro x hx
      rw [bucketOf_indexNode cr _ he x.tag]
      intro hmem
      rcases List.mem_append.mp hmem with h1 | h1
      · exact hfresh x (by simp [Exp.preorder, hx]) h1
      · by_cases ht : (Exp.binop l o a b).tag = x.tag
        · rw [if_pos ht] at h1
          simp only [List.mem_singleton] at h1
          exact hmemE (by rw [← h1]; exact Or.inl hx)
        · rw [if_neg ht] at h1; simp at h1
    have hma := iha ctx _ crm hca hndA hfreshA
    have hfreshB : ∀ x ∈ b.preorder, x ∉ bucketOf crm x.tag := by
      intro x hx
      rw [hma x.tag, bucketOf_indexNode cr _ he x.tag]
      intro hmem
      rcases List.mem_append.mp hmem with h1 | h1
      · rcases List.mem_append.mp h1 with h2 | h2
        · exact hfresh x (by simp [Exp.preorder, hx]) h2
        · by_cases ht : (Exp.binop l o a b).tag = x.tag
          · rw [if_pos ht] at h2
            simp only [List.mem_singleton] at h2
            exact hmemE (by rw [← h2]; exact Or.inr hx)
          · rw [if_neg ht] at h2; simp at h2
      · exact hdisj (List.mem_of_mem_filter h1) hx
    have hmb := ihb ctx crm cr2 hcb hndB hfreshB
    rw [hmb t, hma t, bucketOf_indexNode cr _ he t]
    simp only [Exp.preorder, List.filter_cons, List.filter_append]
    by_cases ht : (Exp.binop l o a b).tag = t <;>
      simp [ht, List.append_assoc, beq_iff_eq]
  | app l a b iha ihb =>
    intro ctx cr cr2 hok hnd hfresh t
    have hc : collectExpressions (.app l a b) ctx cr
        = (collectExpressions a ctx (indexNode cr (.app l a b))) >>=
            (fun crm => collectExpressions b ctx crm) := rfl
    rw [hc, bind_ok] at hok
    obtain ⟨crm, hca, hcb⟩ := hok
    have he : (Exp.app l a b) ∉ bucketOf cr (Exp.app l a b).tag :=
      hfresh _ (by simp [Exp.preorder])
    simp only [Exp.preorder, List.nodup_cons, List.nodup_append, List.mem_append] at hnd
    obtain ⟨hmemE, hndA, hndB, hdisj⟩ := hnd
    have hfreshA : ∀ x ∈ a.preorder, x ∉ bucketOf (indexNode cr (.app l a b)) x.tag := by
      intro x hx
      rw [bucketOf_indexNode cr _ he x.tag]
      intro hmem
      rcases List.mem_append.mp hmem with h1 | h1
      · exact hfresh x (by simp [Exp.preorder, hx]) h1
      · by_cases ht : (Exp.app l a b).tag = x.tag
        · rw [if_pos ht] at h1
          simp only [List.mem_singleton] at h1
          exact hmemE (by rw [← h1]; exact Or.inl hx)
        · rw [if_neg ht] at h1; simp at h1
    have hma := iha ctx _ crm hca hndA hfreshA
    have hfreshB : ∀ x ∈ b.preorder, x ∉ bucketOf crm x.tag := by
      intro x hx
      rw [hma x.tag, bucketOf_indexNode cr _ he x.tag]
      intro hmem
      rcases List.mem_append.mp hmem with h1 | h1
      · rcases List.mem_append.mp h1 with h2 | h2
        · exact hfresh x (by simp [Exp.preorder, hx]) h2
        · by_cases ht : (Exp.app l a b).tag = x.tag
          · rw [if_pos ht] at h2
            simp only [List.mem_singleton] at h2
            exact hmemE (by rw [← h2]; exact Or.inr hx)
          · rw [if_neg ht] at h2; simp at h2
      · exact hdisj (List.mem_of_mem_filter h1) hx
    have hmb := ihb ctx crm cr2 hcb hndB hfreshB
    rw [hmb t, hma t, bucketOf_indexNode cr _ he t]
    simp only [Exp.preorder, List.filter_cons, List.filter_append]
    by_cases ht : (Exp.app l a b).tag = t <;>
      simp [ht, List.append_assoc, beq_iff_eq]
  | fn l v b ihb =>
    intro ctx cr cr2 hok hnd hfresh t
    have he : (Exp.fn l v b) ∉ bucketOf cr (Exp.fn l v b).tag :=
      hfresh _ (by simp [Exp.preorder])
    simp only [Exp.preorder, List.nodup_cons] at hnd
    obtain ⟨hmemE, hndB⟩ := hnd
    have hfreshB : ∀ x ∈ b.preorder, x ∉ bucketOf (indexNode cr (.fn l v b)) x.tag := by
      intro x hx
      rw [bucketOf_indexNode cr _ he x.tag]
      intro hmem
      rcases List.mem_append.mp hmem with h1 | h1
      · exact hfresh x (by simp [Exp.preorder, hx]) h1
      · by_cases ht : (Exp.fn l v b).tag = x.tag
        · rw [if_pos ht] at h1
          simp only [List.mem_singleton] at h1
          exact hmemE (by rw [← h1]; exact hx)
        · rw [if_neg ht] at h1; simp at h1
    have hmb := ihb (extendContext ctx l [v]) _ cr2 hok hndB hfreshB
    rw [hmb t, bucketOf_indexNode cr _ he t]
    simp only [Exp.preorder, List.filter_cons]
    by_cases ht : (Exp.fn l v b).tag = t <;>
      simp [ht, List.append_assoc, beq_iff_eq]
  | efun l n v b ihb =>
    intro ctx cr cr2 hok hnd hfresh t
    have he : (Exp.efun l n v b) ∉ bucketOf cr (Exp.efun l n v b).tag :=
      hfresh _ (by simp [Exp.preorder])
    simp only [Exp.preorder, List.nodup_cons] at hnd
    obtain ⟨hmemE, hndB⟩ := hnd
    by_cases hcol : n = v
    · exact absurd hok (by simp [collectExpressions, hcol])
    · have hc : collectExpressions (.efun l n v b) ctx cr
          = collectExpressions b (extendContext ctx l [n, v]) (indexNode cr (.efun l n v b)) := by
        simp [collectExpressions, hcol]
      rw [hc] at hok
      have hfreshB : ∀ x ∈ b.preorder, x ∉ bucketOf (indexNode cr (.efun l n v b)) x.tag := by
        intro x hx
        rw [bucketOf_indexNode cr _ he x.tag]
        intro hmem
        rcases List.mem_append.mp hmem with h1 | h1
        · exact hfresh x (by simp [Exp.preorder, hx]) h1
        · by_cases ht : (Exp.efun l n v b).tag = x.tag
          · rw [if_pos ht] at h1
            simp only [List.mem_singleton] at h1
            exact hmemE (by rw [← h1]; exact hx)
          · rw [if_neg ht] at h1; simp at h1
      have hmb := ihb (extendContext ctx l [n, v]) _ cr2 hok hndB hfreshB
      rw [hmb t, bucketOf_indexNode cr _ he t]
      simp only [Exp.preorder, List.filter_cons]
      by_cases ht : (Exp.efun l n v b).tag = t <;>
        simp [ht, List.append_assoc, beq_iff_eq]
  | elet l v x b ihx ihb =>
    intro ctx cr cr2 hok hnd hfresh t
    have hc : collectExpressions (.elet l v x b) ctx cr
        = (collectExpressions x ctx (indexNode cr (.elet l v x b))) >>=
            (fun crm => collectExpressions b (extendContext ctx l [v]) crm) := rfl
    rw [hc, bind_ok] at hok
    obtain ⟨crm, hca, hcb⟩ := hok
    have he : (Exp.elet l v x b) ∉ bucketOf cr (Exp.elet l v x b).tag :=
      hfresh _ (by simp [Exp.preorder])
    simp only [Exp.preorder, List.nodup_cons, List.nodup_append, List.mem_append] at hnd
    obtain ⟨hmemE, hndA, hndB, hdisj⟩ := hnd
    have hfreshA : ∀ y ∈ x.preorder, y ∉ bucketOf (indexNode cr (.elet l v x b)) y.tag := by
      intro y hy
      rw [bucketOf_indexNode cr _ he y.tag]
      intro hmem
      rcases List.mem_append.mp hmem with h1 | h1
      · exact hfresh y (by simp [Exp.preorder, hy]) h1
      · by_cases ht : (Exp.elet l v x b).tag = y.tag
        · rw [if_pos ht] at h1
          simp only [List.mem_singleton] at h1
          exact hmemE (by rw [← h1]; exact Or.inl hy)
        · rw [if_neg ht] at h1; simp at h1
    have hma := ihx ctx _ crm hca hndA hfreshA
    have hfreshB : ∀ y ∈ b.preorder, y ∉ bucketOf crm y.tag := by
      intro y hy
      rw [hma y.tag, bucketOf_indexNode cr _ he y.tag]
      intro hmem
      rcases List.mem_append.mp hmem with h1 | h1
      · rcases List.mem_append.mp h1 with h2 | h2
        · exact hfresh y (by simp [Exp.preorder, hy]) h2
        · by_cases ht : (Exp.elet l v x b).tag = y.tag
          · rw [if_pos ht] at h2
            simp only [List.mem_singleton] at h2
            exact hmemE (by rw [← h2]; exact Or.inr hy)
          · rw [if_neg ht] at h2; simp at h2
      · exact hdisj (List.mem_of_mem_filter h1) hy
    have hmb := ihb (extendContext ctx l [v]) crm cr2 hcb hndB hfreshB
    rw [hmb t, hma t, bucketOf_indexNode cr _ he t]
    simp only [Exp.preorder, List.filter_cons, List.filter_append]
    by_cases ht : (Exp.elet l v x b).tag = t <;>
      simp [ht, List.append_assoc, beq_iff_eq]
  | eif l c t0 f ihc iht ihf =>
    intro ctx cr cr2 hok hnd hfresh t
    have hc : collectExpressions (.eif l c t0 f) ctx cr
        = (collectExpressions c ctx (indexNode cr (.eif l c t0 f))) >>=
            (fun crm => (collectExpressions t0 ctx crm) >>=
              (fun crm2 => collectExpressions f ctx crm2)) := rfl
    rw [hc, bind_ok] at hok
    obtain ⟨crm, hcc, hok⟩ := hok
    rw [bind_ok] at hok
    obtain ⟨crm2, hct, hcf⟩ := hok
    have he : (Exp.eif l c t0 f) ∉ bucketOf cr (Exp.eif l c t0 f).tag :=
      hfresh _ (by simp [Exp.preorder])
    simp only [Exp.preorder, List.nodup_cons, List.nodup_append, List.mem_append] at hnd
    obtain ⟨hmemE, ⟨hndC, hndT, hdisjCT⟩, hndF, hdisjCTF⟩ := hnd
    have hfreshC : ∀ y ∈ c.preorder, y ∉ bucketOf (indexNode cr (.eif l c t0 f)) y.tag := by
      intro y hy
      rw [bucketOf_indexNode cr _ he y.tag]
      intro hmem
      rcases List.mem_append.mp hmem with h1 | h1
      · exact hfresh y (by simp [Exp.preorder, hy]) h1
      · by_cases ht : (Exp.eif l c t0 f).tag = y.tag
        · rw [if_pos ht] at h1
          simp only [List.mem_singleton] at h1
          exact hmemE (by rw [← h1]; exact Or.inl (Or.inl hy))
        · rw [if_neg ht] at h1; simp at h1
    have hmc := ihc ctx _ crm hcc hndC hfreshC
    have hfreshT : ∀ y ∈ t0.preorder, y ∉ bucketOf crm y.tag := by
      intro y hy
      rw [hmc y.tag, bucketOf_indexNode cr _ he y.tag]
      intro hmem
      rcases List.mem_append.mp hmem with h1 | h1
      · rcases List.mem_append.mp h1 with h2 | h2
        · exact hfresh y (by simp [Exp.preorder, hy]) h2
        · by_cases ht : (Exp.eif l c t0 f).tag = y.tag
          · rw [if_pos ht] at h2
            simp only [List.mem_singleton] at h2
            exact hmemE (by rw [← h2]; exact Or.inl (Or.inr hy))
          · rw [if_neg ht] at h2; simp at h2
      · exact hdisjCT (List.mem_of_mem_filter h1) hy
    have hmt := iht ctx crm crm2 hct hndT hfreshT
    have hfreshF : ∀ y ∈ f.preorder, y ∉ bucketOf crm2 y.tag := by
      intro y hy
      rw [hmt y.tag, hmc y.tag, bucketOf_indexNode cr _ he y.tag]
      intro hmem
      rcases List.mem_append.mp hmem with h1 | h1
      · rcases List.mem_append.mp h1 with h2 | h2
        · rcases List.mem_append.mp h2 with h3 | h3
          · exact hfresh y (by simp [Exp.preorder, hy]) h3
          · by_cases ht : (Exp.eif l c t0 f).tag = y.tag
            · rw [if_pos ht] at h3
              simp only [List.mem_singleton] at h3
              exact hmemE (by rw [← h3]; exact Or.inr hy)
            · rw [if_neg ht] at h3; simp at h3
        · exact hdisjCTF (List.mem_append.mpr (Or.inl (List.mem_of_mem_filter h2))) hy
      · exact hdisjCTF (List.mem_append.mpr (Or.inr (List.mem_of_mem_filter h1))) hy
    have hmf := ihf ctx crm2 cr2 hcf hndF hfreshF
    rw [hmf t, hmt t, hmc t, bucketOf_indexNode cr _ he t]
    simp only [Exp.preorder, List.filter_cons, List.filter_append]
    by_cases ht : (Exp.eif l c t0 f).tag = t <;>
      simp [ht, List.append_assoc, beq_iff_eq]

/-- Entries are memoized: a second `getOrCreateEntry` with the same
category and key returns the same id and leaves the state untouched. -/
theorem getOrCreateEntry_idem (c : String) (k : Value) (st : SolverState) (id : String)
    (st2 : SolverState) (h : getOrCreateEntry c k st = (id, st2)) :
    getOrCreateEntry c k st2 = (id, st2) := by
  cases hlk : lookupA st.entries (c ++ "(" ++ keyStr k ++ ")") with
  | some e =>
    have h' := h
    unfold getOrCreateEntry at h'
    dsimp only at h'
    rw [hlk] at h'
    injection h' with h1 h2
    unfold getOrCreateEntry
    dsimp only
    rw [← h2, hlk, h1, h2]
  | none =>
    have h' := h
    unfold getOrCreateEntry at h'
    dsimp only at h'
    rw [hlk] at h'
    injection h' with h1 h2
    have hlk2 : lookupA st2.entries (c ++ "(" ++ keyStr k ++ ")")
        = some ⟨k, [], []⟩ := by
      rw [← h2]
      dsimp only
      rw [lookupA_append, hlk]
      simp [lookupA, List.find?]
    unfold getOrCreateEntry
    dsimp only
    rw [hlk2, h1]

/-- A scope-resolution failure is the whole solve's failure. -/
theorem solve_of_collect_error (ast : Exp) (rules : List Rule) (err : SolverError)
    (h : collectExpressions ast [] ⟨[], [], []⟩ = .error err) :
    solve ast rules = .error err := by
  unfold solve solveState collectAll
  rw [h]
  rfl

theorem henv_nil : ∀ n, ([] : List String).contains n = (ctxLookup [] n).isSome := by
  intro n
  simp [ctxLookup, lookupA, List.find?]

/-! ## Concrete inputs used by the claims -/

/-- The AST `(1 + 2)`: labels 1 (the operation), 2 and 3. -/
def astPlus : Exp := .binop 1 .add (.num 2 1) (.num 3 2)

/-- Seed 5 into entry `C(2)`. -/
def ruleConst5ToLeft : Rule := ⟨.const (.num 5), .expression (.num 2 1)⟩

/-- Propagate `C(2)` into `C(3)`. -/
def ruleLeftToRight : Rule := ⟨.ref (.expression (.num 2 1)), .expression (.num 3 2)⟩

/-- Propagate `C(1)` into `C(2)`. -/
def ruleRootToLeft : Rule := ⟨.ref (.expression astPlus), .expression (.num 2 1)⟩

/-- Seed 7 into entry `C(1)`. -/
def ruleConst7ToRoot : Rule := ⟨.const (.num 7), .expression astPlus⟩

/-- One definition order of the four rules. -/
def rulesOrderA : List Rule :=
  [ruleConst5ToLeft, ruleLeftToRight, ruleRootToLeft, ruleConst7ToRoot]

/-- The same four rules in reverse definition order. -/
def rulesOrderB : List Rule :=
  [ruleConst7ToRoot, ruleRootToLeft, ruleLeftToRight, ruleConst5ToLeft]

/-- The state after solving `astPlus` under `rulesOrderA`. -/
def stPlusA : SolverState :=
  match solveState astPlus rulesOrderA with
  | .ok st => st
  | .error _ => ⟨[], [], []⟩

/-- The scope indices of `astPlus`. -/
def crPlus : CollectResult :=
  match collectAll astPlus with
  | .ok cr => cr
  | .error _ => ⟨[], [], []⟩

/-- The AST `(fun f x => f)`: a `fun` whose body is a `var` bound to the
function name. -/
def astFunFX : Exp := .efun 1 "f" "x" (.var 2 "f")

/-- The AST `(fn x => x)`. -/
def astFnXX : Exp := .fn 1 "x" (.var 2 "x")

/-- The scope indices of `astFnXX`. -/
def crFnXX : CollectResult :=
  match collectAll astFnXX with
  | .ok cr => cr
  | .error _ => ⟨[], [], []⟩

/-- The AST `(y + (fun f f => f))`: an unbound variable met by the
traversal before a colliding `fun` binder. -/
def astUnboundThenCollide : Exp :=
  .binop 1 .add (.var 2 "y") (.efun 3 "f" "f" (.var 4 "f"))

/-- The AST `(fun f f => f)` of spec Scenario E. -/
def astCollide : Exp := .efun 1 "f" "f" (.var 2 "f")

/-- The single-node AST with root label 1 of spec Scenario B. -/
def astRoot1 : Exp := .num 1 42

/-- A one-entry state with one constant rule, used to exercise
`enactRule` directly. -/
def demoSt : SolverState :=
  ⟨[("C(1)", ⟨.num 1, [.num 5], [0]⟩)], [⟨.const (.num 7), "C(1)"⟩], []⟩

/-- The AST `(fn a => (fn a_b => a))`: two binders whose bound-variable
entries get the string discriminators `a#1` and `a_b#2`
(variable names match `[a-z_]+`, so underscores are reachable). -/
def astUnderscore : Exp := .fn 1 "a" (.fn 2 "a_b" (.var 3 "a"))

/-- Seed the two bound-variable entries of `astUnderscore`. -/
def rulesUnderscore : List Rule :=
  [⟨.const (.num 1), .boundVariable astUnderscore⟩,
   ⟨.const (.num 2), .boundVariable (.fn 2 "a_b" (.var 3 "a"))⟩]

/-- An entry store with both discriminator kinds, including
underscore-named string keys. -/
def mixedEntries : List (String × Entry) :=
  [("p(a#1)", ⟨.str "a#1", [.num 1], []⟩),
   ("C(3)", ⟨.num 3, [], []⟩),
   ("p(a_b#2)", ⟨.str "a_b#2", [.num 2], []⟩)]

/-! ## The claims -/

/-- C1: the claim says the drain is an expanding worklist in which one
Entry can be dequeued and reprocessed arbitrarily often, so that when
the drain finishes re-enacting any translated rule would insert no new
value.  The code violates this: the worklist is a JS `Set` from which
nothing is ever deleted, so `worklist.add` on an entry that was already
visited is a no-op and the entry is never reprocessed.  On `(1 + 2)`
with the four rules of `rulesOrderA`, `C(2)` is visited first, then
grows again when `C(1)` is visited, but is never revisited: after the
drain `C(3)` holds `[5]`, yet re-enacting translated rule 1 (the rule
`C(2) → C(3)`) inserts the missing value 7 — the final state is not a
fixpoint. -/
theorem C1_drain_not_fixpoint :
    (solveState astPlus rulesOrderA).toOption.map
        (fun st => (entryData st "C(2)", entryData st "C(3)", entryData (enactRule 1 st) "C(3)"))
      = some ([Value.num 5, Value.num 7], [Value.num 5], [Value.num 5, Value.num 7]) := by
  decide

/-- C2: the claim says any permutation of the same rule set yields the
identical final Analysis (the least fixpoint).  The code violates this:
the two orders of the same four (constant and reference, hence trivially
pure and monotone) rules yield different analyses — under `rulesOrderA`
entry `C(3)` ends with `[5]`, under the reversed order with `[7, 5]`. -/
theorem C2_rule_order_changes_result :
    solve astPlus rulesOrderA
      = .ok [("C(1)", [.num 7]), ("C(2)", [.num 5, .num 7]), ("C(3)", [.num 5])]
    ∧ solve astPlus rulesOrderB
      = .ok [("C(1)", [.num 7]), ("C(2)", [.num 7, .num 5]), ("C(3)", [.num 7, .num 5])]
    ∧ rulesOrderB.Perm rulesOrderA
    ∧ solve astPlus rulesOrderA ≠ solve astPlus rulesOrderB := by
  refine ⟨by decide, by decide, ?_, by decide⟩
  rw [show rulesOrderB = rulesOrderA.reverse from rfl]
  exact List.reverse_perm rulesOrderA

/-- The claim C3 as stated is false: in `(fun f x => f)` the `var` node
`f` is bound by the `fun` node, but the `variable` Reference to it
canonicalizes to `p(f#1)` while the `boundVariable` Reference to its
binder canonicalizes to `p(x#1)` — two different entries. -/
theorem C3_counterexample :
    (collectAll astFunFX).toOption.map (fun cr =>
      ((getEntryFromReference cr (.variable (.var 2 "f")) ⟨[], [], []⟩).toOption.map Prod.fst,
       (getEntryFromReference cr (.boundVariable astFunFX) ⟨[], [], []⟩).toOption.map Prod.fst))
      = some (some "p(f#1)", some "p(x#1)")
    ∧ ("p(f#1)" : String) ≠ "p(x#1)" := by
  decide

/-- C3 (amended): entries are memoized singletons — resolving the same
(category, discriminator) pair again yields the same entry id and leaves
the entry store untouched; consequently a `variable` Reference to a
`var` node and a `boundVariable` Reference to its binder resolve to the
identical Entry whenever the var's name equals the binder's bound
variable (always the case for `fn`/`let` binders and `fun` parameters;
a var bound to a `fun`'s function name instead coincides with the
`functionVariable` Reference). -/
theorem C3_amended :
    (∀ (c : String) (k : Value) (st : SolverState) (id : String) (st2 : SolverState),
        getOrCreateEntry c k st = (id, st2) → getOrCreateEntry c k st2 = (id, st2))
    ∧ (∀ (cr : CollectResult) (v b : Exp) (st : SolverState) (l : Nat) (id : String)
        (st2 : SolverState),
        lookupA cr.binderMap v = some l → b.label = l → v.nameField = b.variableField →
        getEntryFromReference cr (.variable v) st = .ok (id, st2) →
        getEntryFromReference cr (.boundVariable b) st2 = .ok (id, st2)) := by
  refine ⟨getOrCreateEntry_idem, ?_⟩
  intro cr v b st l id st2 hlk hbl hname hok
  unfold getEntryFromReference at hok ⊢
  dsimp only at hok ⊢
  rw [hlk] at hok
  injection hok with hok
  rw [hbl, ← hname]
  exact congrArg Except.ok
    (getOrCreateEntry_idem "p" (.str (v.nameField ++ "#" ++ toString l)) st id st2 hok)

/-- The claim C3 (amended) instantiated on `(fn x => x)`: both the
`variable` Reference to the `var` node and the `boundVariable` Reference
to the `fn` binder resolve to `p(x#1)`, and the second resolution leaves
the one-entry store unchanged. -/
theorem C3_witness :
    getEntryFromReference crFnXX (.boundVariable astFnXX)
        ⟨[("p(x#1)", ⟨.str "x#1", [], []⟩)], [], []⟩
      = .ok ("p(x#1)", ⟨[("p(x#1)", ⟨.str "x#1", [], []⟩)], [], []⟩) :=
  C3_amended.2 crFnXX (.var 2 "x") astFnXX ⟨[], [], []⟩ 1 "p(x#1)"
    ⟨[("p(x#1)", ⟨.str "x#1", [], []⟩)], [], []⟩ rfl rfl rfl rfl

/-- The claim C5 as stated is false: `(y + (fun f f => f))` contains a
`fun` node whose function name equals its parameter, yet the solve fails
with `UnboundVariable` (the unbound `y` is met first in traversal
order), not with `NameCollision`. -/
theorem C5_counterexample :
    specNoFunCollision astUnboundThenCollide = false
    ∧ solve astUnboundThenCollide [] = .error (.unboundVariable 2 "y")
    ∧ SolverError.unboundVariable 2 "y" ≠ .nameCollision 3 "f" := by
  decide

/-- C5 (amended): for every AST containing a `fun` node whose function
name equals its parameter, and any rule sequence, the solve fails
before any rule is run — with `NameCollision` or, when an unbound
variable is met first, with `UnboundVariable`; when every variable is
bound it always fails with `NameCollision`, and no Analysis is produced.
For a `fun` node with distinct identifiers the traversal descends into
the body under a context binding both the function name and the
parameter to the `fun` node's own label. -/
theorem C5_amended :
    (∀ (ast : Exp) (rules : List Rule), specNoFunCollision ast = false →
      (∃ err, solve ast rules = .error err ∧ scopeErr err)
      ∧ (specAllVarsBound ast [] = true →
          ∃ l n, solve ast rules = .error (.nameCollision l n)))
    ∧ (∀ (l : Nat) (n v : String) (b : Exp) (ctx : Context) (cr : CollectResult), n ≠ v →
        collectExpressions (.efun l n v b) ctx cr
          = collectExpressions b (extendContext ctx l [n, v]) (indexNode cr (.efun l n v b))
        ∧ ctxLookup (extendContext ctx l [n, v]) n = some l
        ∧ ctxLookup (extendContext ctx l [n, v]) v = some l) := by
  constructor
  · intro ast rules hnfc
    obtain ⟨p1, p2, p3⟩ := collect_scope ast [] [] ⟨[], [], []⟩ henv_nil
    cases havb : specAllVarsBound ast [] with
    | true =>
      obtain ⟨l, n, hc⟩ := p3 havb hnfc
      have hsolve : solve ast rules = .error (.nameCollision l n) :=
        solve_of_collect_error ast rules _ hc
      exact ⟨⟨_, hsolve, Or.inr ⟨l, n, rfl⟩⟩, fun _ => ⟨l, n, hsolve⟩⟩
    | false =>
      obtain ⟨err, hc, herr, _⟩ := p2 havb
      have hsolve : solve ast rules = .error err := solve_of_collect_error ast rules err hc
      refine ⟨⟨err, hsolve, herr⟩, ?_⟩
      intro habs
      exact absurd habs (by simp)
  · intro l n v b ctx cr hnv
    refine ⟨by simp [collectExpressions, hnv], ?_, ?_⟩
    · rw [ctxLookup_extendContext]
      simp
    · rw [ctxLookup_extendContext]
      simp

/-- The claim C5 (amended) instantiated on Scenario E, `(fun f f => f)`
(all variables bound, colliding binder ⇒ `NameCollision`), and on a
collision-free `fun` binder whose context binds both names to label 5. -/
theorem C5_witness :
    (∃ l n, solve astCollide [] = .error (.nameCollision l n))
    ∧ ctxLookup (extendContext [] 5 ["g", "x"]) "g" = some 5
    ∧ ctxLookup (extendContext [] 5 ["g", "x"]) "x" = some 5 :=
  ⟨(C5_amended.1 astCollide [] (by decide)).2 (by decide),
   (C5_amended.2 5 "g" "x" (.var 6 "g") [] ⟨[], [], []⟩ (by decide)).2.1,
   (C5_amended.2 5 "g" "x" (.var 6 "g") [] ⟨[], [], []⟩ (by decide)).2.2⟩

/-- The claim C6 as stated is false on the deployed program: the source
sorts string discriminators with the host's no-argument `localeCompare`,
which in browsers is the CLDR collation, under which LOW LINE sorts
before NUMBER SIGN.  Solving `(fn a => (fn a_b => a))` with two
constant rules targeting the binders therefore lists `p(a_b#2)` before
`p(a#1)`, an order that is not lexicographically ascending (in
code-point lexicographic order `a#1` precedes `a_b#2`). -/
theorem C6_counterexample :
    solveWith cldrStrLe astUnderscore rulesUnderscore
      = .ok [("p(a_b#2)", [Value.num 2]), ("p(a#1)", [Value.num 1])]
    ∧ lexLe "a_b#2".data "a#1".data = false
    ∧ lexLe "a#1".data "a_b#2".data = true := by
  decide

/-- C6 (amended): for every string collation `strLe` the host's
`localeCompare` may implement (ECMA-402 requires a consistent total
ordering, so transitivity and totality cover every host) and every
entry store, the final Analysis lists every entry exactly once (it is a
permutation of the entry store mapped to its data lists), it equals the
entry store sorted by the source's comparator and mapped to the
untouched first-insertion-order data lists (so the value lists are not
separately sorted), and in the sorted order every numeric discriminator
precedes every string discriminator, numeric discriminators ascend by
value and string discriminators ascend according to `strLe` — the
host's collation, which is code-point lexicographic only where the host
makes it so (browser CLDR collation is not: it orders `_` before `#`). -/
theorem C6_analysis_host_order (strLe : String → String → Bool)
    (htrans : ∀ a b c, strLe a b = true → strLe b c = true → strLe a c = true)
    (htotal : ∀ a b, strLe a b = true ∨ strLe b a = true)
    (entries : List (String × Entry)) :
    (formatAnalysisWith strLe entries).Perm (entries.map (fun p => (p.1, p.2.data)))
    ∧ formatAnalysisWith strLe entries
        = (sortBy (fun a b => keyLeWith strLe a.2.key b.2.key) entries).map
            (fun p => (p.1, p.2.data))
    ∧ (sortBy (fun a b => keyLeWith strLe a.2.key b.2.key) entries).Pairwise (fun a b =>
        match a.2.key, b.2.key with
        | Value.num x, Value.num y => x ≤ y
        | Value.num _, Value.str _ => True
        | Value.str x, Value.str y => strLe x y = true
        | Value.str _, Value.num _ => False) := by
  have htrans2 : ∀ a b c : String × Entry, keyLeWith strLe a.2.key b.2.key = true →
      keyLeWith strLe b.2.key c.2.key = true → keyLeWith strLe a.2.key c.2.key = true :=
    fun a b c hab hbc => keyLeWith_trans strLe htrans _ _ _ hab hbc
  have htotal2 : ∀ a b : String × Entry,
      keyLeWith strLe a.2.key b.2.key = true ∨ keyLeWith strLe b.2.key a.2.key = true :=
    fun a b => keyLeWith_total strLe htotal _ _
  refine ⟨?_, rfl, ?_⟩
  · exact (sortBy_perm _ entries).map _
  · have hp := sortBy_pairwise (fun a b : String × Entry => keyLeWith strLe a.2.key b.2.key)
      htrans2 htotal2 entries
    refine hp.imp ?_
    intro a b h
    rcases hA : a.2.key with x | x <;> rcases hB : b.2.key with y | y
    · rw [hA, hB] at h
      simp only [keyLeWith] at h
      exact of_decide_eq_true h
    · exact trivial
    · rw [hA, hB] at h
      simp [keyLeWith] at h
    · rw [hA, hB] at h
      exact h

/-- The claim C6 (amended) instantiated at the CLDR-fragment collation
the browser's `localeCompare` implements, on an entry store holding a
numeric key and two underscore-distinguished string keys. -/
theorem C6_witness :
    (formatAnalysisWith cldrStrLe mixedEntries).Perm
        (mixedEntries.map (fun p => (p.1, p.2.data)))
    ∧ formatAnalysisWith cldrStrLe mixedEntries
        = (sortBy (fun a b => keyLeWith cldrStrLe a.2.key b.2.key) mixedEntries).map
            (fun p => (p.1, p.2.data))
    ∧ (sortBy (fun a b => keyLeWith cldrStrLe a.2.key b.2.key) mixedEntries).Pairwise (fun a b =>
        match a.2.key, b.2.key with
        | Value.num x, Value.num y => x ≤ y
        | Value.num _, Value.str _ => True
        | Value.str x, Value.str y => cldrStrLe x y = true
        | Value.str _, Value.num _ => False) :=
  C6_analysis_host_order cldrStrLe cldrStrLe_trans cldrStrLe_total mixedEntries

/-- C7: during a solve an Entry's data only grows — after any single rule
enactment, and across any whole drain, the previous data list is a prefix
(hence a subset, with no value ever removed) of the later one; rule
enactment preserves freedom from duplicates, and every state a successful
solve produces has duplicate-free data in every entry. -/
theorem C7_data_monotone :
    (∀ (rid : Nat) (st : SolverState) (eid : String),
        entryData st eid <+: entryData (enactRule rid st) eid)
    ∧ (∀ (fuel i : Nat) (st : SolverState) (eid : String),
        entryData st eid <+: entryData (drainFrom fuel i st) eid)
    ∧ (∀ (rid : Nat) (st : SolverState), DataNodup st → DataNodup (enactRule rid st))
    ∧ (∀ (ast : Exp) (rules : List Rule) (st : SolverState),
        solveState ast rules = .ok st → DataNodup st) :=
  ⟨enactRule_data_grows,
   fun fuel i st eid => drainFrom_data_grows fuel i st eid,
   enactRule_nodup,
   solveState_nodup⟩

/-- The claim C7 instantiated concretely: enacting the constant rule of
`demoSt` appends to `C(1)`'s data, preserves its duplicate freedom, and
the state solved from `(1 + 2)` under `rulesOrderA` has duplicate-free
data everywhere. -/
theorem C7_witness :
    (entryData demoSt "C(1)" <+: entryData (enactRule 0 demoSt) "C(1)")
    ∧ DataNodup (enactRule 0 demoSt)
    ∧ DataNodup stPlusA :=
  ⟨C7_data_monotone.1 0 demoSt "C(1)",
   C7_data_monotone.2.2.1 0 demoSt (by unfold DataNodup; decide),
   C7_data_monotone.2.2.2 astPlus rulesOrderA stPlusA rfl⟩

/-- The claim C8 as stated is false: on `(1 + 2)` the call
`type('n', '+')` yields the nodes labeled `[2, 3, 1]` — grouped by tag,
not in definition order `[1, 2, 3]` of the matching nodes. -/
theorem C8_counterexample :
    (match collectAll astPlus with
      | .ok cr => (getExpressionsOfType cr [.tnum, .top .add]).map Exp.label
      | .error _ => []) = [2, 3, 1]
    ∧ ([2, 3, 1] : List Nat) ≠ [1, 2, 3] := by
  decide

/-- C8 (amended): for every AST with distinct nodes (labels are unique)
whose scope resolution succeeds, `type(tag, ...)` returns the finite
sequence holding exactly the nodes whose variant matches the given tags,
grouped by the given tags in argument order, and within each tag in
definition (preorder traversal) order; the sequence is a value of the
snapshot taken during scope resolution, so every iteration yields the
same elements. -/
theorem C8_amended (ast : Exp) (cr : CollectResult) (tags : List Tag)
    (hok : collectAll ast = .ok cr) (hnd : ast.preorder.Nodup) :
    getExpressionsOfType cr tags
      = tags.flatMap (fun t => ast.preorder.filter (fun x => x.tag == t)) := by
  have hb := collect_buckets ast [] ⟨[], [], []⟩ cr hok hnd
    (by intro x hx; simp [bucketOf, lookupA, List.find?])
  have hbt : ∀ t, (lookupA cr.byType t).getD [] = ast.preorder.filter (fun x => x.tag == t) := by
    intro t
    have h := hb t
    simpa [bucketOf, lookupA, List.find?] using h
  unfold getExpressionsOfType
  simp only [hbt]

/-- The claim C8 (amended) instantiated on `(1 + 2)` with tags
`('n', '+')`. -/
theorem C8_witness :
    collectAll astPlus = .ok crPlus
    ∧ astPlus.preorder.Nodup
    ∧ getExpressionsOfType crPlus [.tnum, .top .add]
        = [Tag.tnum, Tag.top .add].flatMap (fun t => astPlus.preorder.filter (fun x => x.tag == t)) :=
  ⟨rfl, by decide, C8_amended astPlus crPlus [.tnum, .top .add] rfl (by decide)⟩

/-- C9: Scenario B — on the AST whose root is the single node labeled 1
and the single rule `{lhs: {constant: 1}, rhs: {expression: root}}`, the
solve succeeds with the Analysis `{"C(1)": [1]}`. -/
theorem C9_scenario_b :
    solve astRoot1 [⟨.const (.num 1), .expression astRoot1⟩]
      = .ok [("C(1)", [Value.num 1])] := by
  decide

/-- C10: every Entry of the final state appears as a key of the final
Analysis with exactly its data list (the Analysis is the formatted whole
entry store, and formatting keeps every entry); in particular an entry
that was only ever referenced as a rule's lhs and never received a value
appears with an empty list, as on `(1 + 2)` with the single rule
`C(2) → C(3)`, whose Analysis is `{"C(2)": [], "C(3)": []}`. -/
theorem C10_all_entries_in_analysis :
    (∀ (ast : Exp) (rules : List Rule) (st : SolverState),
        solveState ast rules = .ok st →
        solve ast rules = .ok (formatAnalysis st.entries)
        ∧ ∀ p ∈ st.entries, (p.1, p.2.data) ∈ formatAnalysis st.entries)
    ∧ solve astPlus [ruleLeftToRight] = .ok [("C(2)", []), ("C(3)", [])] := by
  constructor
  · intro ast rules st hok
    constructor
    · unfold solve
      rw [hok]
      rfl
    · intro p hp
      have hperm := sortBy_perm (fun a b : String × Entry => keyLe a.2.key b.2.key) st.entries
      exact List.mem_map.mpr ⟨p, hperm.mem_iff.mpr hp, rfl⟩
  · decide

/-- The claim C10 instantiated on `(1 + 2)` under `rulesOrderA`: the
solve formats exactly the final entry store, and the entry `C(1)`
appears in the Analysis with its data `[7]`. -/
theorem C10_witness :
    solve astPlus rulesOrderA = .ok (formatAnalysis stPlusA.entries)
    ∧ ("C(1)", [Value.num 7]) ∈ formatAnalysis stPlusA.entries :=
  ⟨(C10_all_entries_in_analysis.1 astPlus rulesOrderA stPlusA rfl).1,
   (C10_all_entries_in_analysis.1 astPlus rulesOrderA stPlusA rfl).2
     ("C(1)", ⟨Value.num 1, [Value.num 7], [2]⟩) (by decide)⟩
